import Mathlib

/-!
# Type-model builder of the TypeScript code generator

A shallow embedding of `internal/codegen/typescript/gen.go`,
`postgresql_type.go` and the type rendering of `codegen.go`: the catalog and
query messages the generator reads (`plugin`), the helpers it calls (`sdk`,
`strings`, `sort`), the builders `buildEnums`, `buildModels`, `buildQueries`
and `columnsToStruct`, and `PrimitiveType.EmitCode`, followed by theorems about
them.

Conventions of the embedding:

* Go slices are lists, in slice order; Go strings are `String`s (valid UTF-8,
  as protobuf strings are).
* A Go `map[K]V` read with `m[k]` is a total function giving the zero value for
  a missing key; the `ok` form of a read is an `Option`.
* `int32` values are integers kept in range by `wrap32`.
* Pointer fields the code dereferences without a nil test (`Column.Type`,
  `Parameter.Column`, `Table.Rel`, the elements of the repeated fields) are
  plain values; `Column.Table`, which `sdk.SameTableName` tests for nil, is an
  `Option`.
* A Go struct field named `Type` is written `Typ`.
-/

/-! ## The request messages (`internal/plugin`) -/

namespace plugin

/-- The message `plugin.Identifier`: a possibly qualified name. -/
structure Identifier where
  Catalog : String := ""
  Schema : String := ""
  Name : String := ""
deriving DecidableEq

/-- The message `plugin.Column`, with the fields the builders read. -/
structure Column where
  Name : String := ""
  NotNull : Bool := false
  IsArray : Bool := false
  Comment : String := ""
  Table : Option Identifier := none
  Typ : Identifier := {}
deriving DecidableEq

/-- The message `plugin.Table`. -/
structure Table where
  Rel : Identifier := {}
  Columns : List Column := []
  Comment : String := ""
deriving DecidableEq

/-- The message `plugin.Enum`. -/
structure Enum where
  Name : String := ""
  Vals : List String := []
  Comment : String := ""
deriving DecidableEq

/-- The message `plugin.Schema`. -/
structure Schema where
  Name : String := ""
  Tables : List Table := []
  Enums : List Enum := []
deriving DecidableEq

/-- The message `plugin.Catalog`. -/
structure Catalog where
  DefaultSchema : String := ""
  Schemas : List Schema := []
deriving DecidableEq

/-- The message `plugin.Settings`; the `Rename` map is a list of key-value
pairs read through `renameOf`. -/
structure Settings where
  Engine : String := ""
  Rename : List (String × String) := []
deriving DecidableEq

/-- The message `plugin.Parameter`; `Number` is an `int32`. -/
structure Parameter where
  Number : Int := 0
  Column : Column := {}
deriving DecidableEq

/-- The message `plugin.Query`. -/
structure Query where
  Text : String := ""
  Name : String := ""
  Cmd : String := ""
  Columns : List Column := []
  Params : List Parameter := []
  Comments : List String := []
deriving DecidableEq

/-- The message `plugin.CodeGenRequest`. -/
structure CodeGenRequest where
  Settings : Settings := {}
  Catalog : Catalog := {}
  Queries : List Query := []
deriving DecidableEq

end plugin

/-! ## Library functions the builders call -/

/-- The value of an `int32` computation: the integer reduced into
`[-2^31, 2^31)`. -/
def wrap32 (x : Int) : Int :=
  (x + 2147483648) % 4294967296 - 2147483648

/-- The verb `%d` of `fmt.Sprintf` applied to an integer. -/
def fmtInt (n : Int) : String :=
  toString n

/-- Go's `<` on strings: lexicographic on the UTF-8 bytes, which for valid
UTF-8 is lexicographic on the code points. -/
def stringLess : List Char → List Char → Bool
  | _, [] => false
  | [], _ :: _ => true
  | a :: as, b :: bs =>
    if a.toNat < b.toNat then true
    else if b.toNat < a.toNat then false
    else stringLess as bs

namespace strings

/-- Go's `strings.TrimPrefix`. -/
def TrimPrefix (s pre : String) : String :=
  if pre.data.isPrefixOf s.data then ⟨s.data.drop pre.data.length⟩ else s

/-- The pieces of a character list between occurrences of `sep`. -/
def splitChars (sep : Char) : List Char → List (List Char)
  | [] => [[]]
  | c :: cs =>
    if c = sep then [] :: splitChars sep cs
    else
      match splitChars sep cs with
      | [] => [[c]]
      | w :: ws => (c :: w) :: ws

/-- Go's `strings.Split` for a separator of one character, the only form the
generator uses (`strings.Split(name, "_")`). -/
def Split (s : String) (sep : Char) : List String :=
  (splitChars sep s.data).map String.mk

/-- The unexported `isSeparator` of Go's `strings` package: ASCII letters,
digits and the underscore are not separators, every other ASCII character is;
outside ASCII the separators are the characters of `unicode.IsSpace`. -/
def isSeparator (r : Char) : Bool :=
  if r.toNat ≤ 0x7F then
    !(('0'.toNat ≤ r.toNat && r.toNat ≤ '9'.toNat) ||
      ('a'.toNat ≤ r.toNat && r.toNat ≤ 'z'.toNat) ||
      ('A'.toNat ≤ r.toNat && r.toNat ≤ 'Z'.toNat) ||
      r = '_')
  else
    r.toNat = 0x85 || r.toNat = 0xA0 || r.toNat = 0x1680 ||
    (0x2000 ≤ r.toNat && r.toNat ≤ 0x200A) ||
    r.toNat = 0x2028 || r.toNat = 0x2029 || r.toNat = 0x202F ||
    r.toNat = 0x205F || r.toNat = 0x3000

/-- Go's `unicode.ToTitle` on the ASCII range, where it is upper-casing of
`a`..`z`; the case tables of the other code points are not part of the model
and those characters are left as they are. -/
def toTitle (r : Char) : Char :=
  if 'a'.toNat ≤ r.toNat ∧ r.toNat ≤ 'z'.toNat then Char.ofNat (r.toNat - 32) else r

/-- The mapping loop of `strings.Title`: `prev` is the previous character. -/
def titleChars (prev : Char) : List Char → List Char
  | [] => []
  | r :: rs => (if isSeparator prev then toTitle r else r) :: titleChars r rs

/-- Go's `strings.Title`: every character that follows a separator (or starts
the string) is mapped to title case. -/
def Title (s : String) : String :=
  ⟨titleChars ' ' s.data⟩

end strings

namespace sort

/-- Insert `x` in front of the first element it is less than. -/
def insertLess {α : Type} (less : α → α → Bool) (x : α) : List α → List α
  | [] => [x]
  | y :: ys => if less x y then x :: y :: ys else y :: insertLess less x ys

/-- Go's `sort.Slice(xs, less)`. The library promises a permutation of the
slice in which no element is less than an earlier one, and leaves the order of
equal elements open; the model is the insertion sort the library runs on slices
of at most 12 elements, each element moved left past the elements it is less
than. -/
def Slice {α : Type} (less : α → α → Bool) (xs : List α) : List α :=
  xs.foldl (fun sorted x => insertLess less x sorted) []

end sort

namespace sdk

/-- Modelled from the spec: `sdk.DataType` (package `internal/codegen/sdk`) is
the native type string of a column, "schema-qualified" when the type name
carries a schema: `schema.name`, else the bare name. -/
def DataType (n : plugin.Identifier) : String :=
  if n.Schema ≠ "" then n.Schema ++ "." ++ n.Name else n.Name

/-- Modelled from the spec: `sdk.SameTableName` (package
`internal/codegen/sdk`) decides whether "the record's source table matches the
query column's source table under schema-qualification rules identical to
naming": a column without source table matches nothing, a column table without
schema stands in the default schema, and then catalog, schema and name must
agree. -/
def SameTableName (tableID : Option plugin.Identifier) (f : plugin.Identifier)
    (defaultSchema : String) : Bool :=
  match tableID with
  | none => false
  | some t =>
    let schema := if t.Schema = "" then defaultSchema else t.Schema
    decide (t.Catalog = f.Catalog) && decide (schema = f.Schema) && decide (t.Name = f.Name)

/-- Modelled from the spec: `sdk.LowerTitle` (package `internal/codegen/sdk`)
lower-cases the first character of a method name; the ASCII range of
`unicode.ToLower` is modelled. -/
def LowerTitle (s : String) : String :=
  match s.data with
  | [] => s
  | c :: cs => ⟨c.toLower :: cs⟩

end sdk

/-! ## The type model (`gen.go`) -/

namespace typescript

/-- The struct `tsType`. -/
structure tsType where
  InnerType : String := ""
  IsArray : Bool := false
  IsNull : Bool := false
deriving DecidableEq

/-- The struct `Field`. -/
structure Field where
  Name : String := ""
  Typ : tsType := {}
  Comment : String := ""
deriving DecidableEq

/-- The struct `Struct`: a record, with the table it was derived from. -/
structure Struct where
  Table : plugin.Identifier := {}
  Name : String := ""
  Fields : List Field := []
  Comment : String := ""
deriving DecidableEq

/-- The struct `Constant`. -/
structure Constant where
  Name : String := ""
  Typ : String := ""
  Value : String := ""
deriving DecidableEq

/-- The struct `Enum`. -/
structure Enum where
  Name : String := ""
  Comment : String := ""
  Constants : List Constant := []
deriving DecidableEq

/-- The struct `QueryValue`; `Struct` is a pointer, nil when the value is a
scalar or absent. -/
structure QueryValue where
  Emit : Bool := false
  Name : String := ""
  Struct : Option Struct := none
  Typ : tsType := {}
deriving DecidableEq

/-- The struct `Query`. -/
structure Query where
  Cmd : String := ""
  Comments : List String := []
  MethodName : String := ""
  SQL : String := ""
  Ret : QueryValue := {}
  Args : List QueryValue := []
deriving DecidableEq

/-- The struct `tsColumn`: a column with the `int32` identity the suffixes are
tracked by. -/
structure tsColumn where
  id : Int := 0
  Column : plugin.Column := {}
deriving DecidableEq

/-! ### Names -/

/-- The function `underScoresToCamelCase`. -/
def underScoresToCamelCase (name : String) : String :=
  (strings.Split name '_').foldl (fun out p => out ++ strings.Title p) ""

/-- The read `settings.Rename[name]` of the rename map: the value stored under
the key, the empty string when the key is missing. -/
def renameOf (settings : plugin.Settings) (name : String) : String :=
  (settings.Rename.lookup name).getD ""

/-- The function `modelName`. -/
def modelName (name : String) (settings : plugin.Settings) : String :=
  if renameOf settings name ≠ "" then renameOf settings name
  else underScoresToCamelCase name

/-- The function `enumValueName`. -/
def enumValueName (name : String) : String :=
  underScoresToCamelCase name

/-- The function `columnName`: `pos` is the 0-based position. -/
def columnName (c : plugin.Column) (pos : Nat) : String :=
  if c.Name ≠ "" then c.Name else "column_" ++ fmtInt (pos + 1)

/-- The function `paramName`. -/
def paramName (p : plugin.Parameter) : String :=
  if p.Column.Name ≠ "" then p.Column.Name else "dollar_" ++ fmtInt p.Number

/-! ### Type resolution (`postgresql_type.go`) -/

/-- The `default:` branch of `postgresType`: the derived name of the first enum,
in catalog order and outside `pg_catalog`, whose qualified name is the column
type. -/
def enumType (req : plugin.CodeGenRequest) (columnType : String) : Option String :=
  req.Catalog.Schemas.findSome? fun schema =>
    if schema.Name = "pg_catalog" then none
    else schema.Enums.findSome? fun enum =>
      let enumName :=
        if schema.Name = req.Catalog.DefaultSchema then enum.Name
        else schema.Name ++ "." ++ enum.Name
      if columnType = enumName then
        if schema.Name = req.Catalog.DefaultSchema then
          some (modelName enum.Name req.Settings)
        else some (modelName (schema.Name ++ "_" ++ enum.Name) req.Settings)
      else none

/-- The function `postgresType`. -/
def postgresType (req : plugin.CodeGenRequest) (col : plugin.Column) : String :=
  let columnType := sdk.DataType col.Typ
  if ["bigserial", "serial8", "pg_catalog.serial8", "bigint", "int8",
      "pg_catalog.int8"].contains columnType then "string"
  else if ["serial", "serial4", "pg_catalog.serial4", "smallserial", "serial2",
      "pg_catalog.serial2", "integer", "int", "int4", "pg_catalog.int4", "smallint",
      "int2", "pg_catalog.int2"].contains columnType then "number"
  else if ["float", "double precision", "float8", "pg_catalog.float8", "real",
      "float4", "pg_catalog.float4"].contains columnType then "number"
  else if ["numeric", "pg_catalog.numeric", "money"].contains columnType then "string"
  else if ["boolean", "bool", "pg_catalog.bool"].contains columnType then "boolean"
  else if ["json", "jsonb"].contains columnType then "unknown"
  else if ["bytea", "blob", "pg_catalog.bytea"].contains columnType then "unknown"
  else if ["date", "pg_catalog.time", "pg_catalog.timetz", "pg_catalog.timestamp",
      "pg_catalog.timestamptz", "timestamptz", "interval", "pg_catalog.interval",
      "timestamp with time zone"].contains columnType then "string"
  else if ["text", "pg_catalog.varchar", "pg_catalog.bpchar", "string",
      "citext"].contains columnType then "string"
  else if ["uuid"].contains columnType then "string"
  else if ["inet", "cidr", "macaddr", "macaddr8"].contains columnType then "string"
  else if ["ltree", "lquery", "ltxtquery"].contains columnType then "string"
  else (enumType req columnType).getD "any"

/-- The function `tsInnerType`. -/
def tsInnerType (req : plugin.CodeGenRequest) (col : plugin.Column) : String :=
  if req.Settings.Engine = "postgresql" then postgresType req col else "unknown"

/-- The function `makeTsType`. -/
def makeTsType (req : plugin.CodeGenRequest) (col : plugin.Column) : tsType :=
  { InnerType := tsInnerType req col, IsArray := col.IsArray, IsNull := !col.NotNull }

/-- The resolved type with a leading `models.` trimmed from the tag, as
`buildModels` stores it and `buildQueries` compares it. -/
def trimmedTsType (req : plugin.CodeGenRequest) (col : plugin.Column) : tsType :=
  { makeTsType req col with
    InnerType := strings.TrimPrefix (makeTsType req col).InnerType "models." }

/-! ### Enums and models -/

/-- The body of the inner loop of `buildEnums`: the descriptor of one enum. -/
def enumOf (req : plugin.CodeGenRequest) (schema : plugin.Schema) (enum : plugin.Enum) : Enum :=
  let enumName :=
    if schema.Name = req.Catalog.DefaultSchema then enum.Name
    else schema.Name ++ "_" ++ enum.Name
  let name := modelName enumName req.Settings
  { Name := name,
    Comment := enum.Comment,
    Constants := enum.Vals.map fun v => { Name := enumValueName v, Value := v, Typ := name } }

/-- The slice `enums` of `buildEnums` before it is sorted. -/
def collectEnums (req : plugin.CodeGenRequest) : List Enum :=
  req.Catalog.Schemas.foldl (fun enums schema =>
    if schema.Name = "pg_catalog" then enums
    else enums ++ schema.Enums.map (enumOf req schema)) []

/-- The function `buildEnums`. -/
def buildEnums (req : plugin.CodeGenRequest) : List Enum :=
  let enums := collectEnums req
  if enums.length > 0 then
    sort.Slice (fun a b => stringLess a.Name.data b.Name.data) enums
  else enums

/-- The body of the inner loop of `buildModels`: the record of one table. -/
def structOf (req : plugin.CodeGenRequest) (schema : plugin.Schema) (table : plugin.Table) :
    Struct :=
  let tableName :=
    if schema.Name = req.Catalog.DefaultSchema then table.Rel.Name
    else schema.Name ++ "_" ++ table.Rel.Name
  { Table := { Schema := schema.Name, Name := table.Rel.Name },
    Name := modelName tableName req.Settings,
    Comment := table.Comment,
    Fields := table.Columns.map fun column =>
      { Name := column.Name, Typ := trimmedTsType req column, Comment := column.Comment } }

/-- The slice `structs` of `buildModels` before it is sorted. -/
def collectStructs (req : plugin.CodeGenRequest) : List Struct :=
  req.Catalog.Schemas.foldl (fun structs schema =>
    if schema.Name = "pg_catalog" then structs
    else structs ++ schema.Tables.map (structOf req schema)) []

/-- The function `buildModels`. -/
def buildModels (req : plugin.CodeGenRequest) : List Struct :=
  let structs := collectStructs req
  if structs.length > 0 then
    sort.Slice (fun a b => stringLess a.Name.data b.Name.data) structs
  else structs

/-! ### Struct synthesis -/

/-- The state of the loop of `columnsToStruct`: the maps `seen` (base name to
number of columns met with it) and `suffixes` (identity to the suffix given to
it), and the fields appended so far. -/
structure synthState where
  seen : String → Int
  suffixes : Int → Option Int
  Fields : List Field

/-- The suffix the loop of `columnsToStruct` chooses for a column with base
name `colName` and identity `id`: the suffix recorded for the identity if there
is one, else `seen[colName] + 1` when the base name was met before, else 0. -/
def chooseSuffix (seen : String → Int) (suffixes : Int → Option Int) (colName : String)
    (id : Int) : Int :=
  match suffixes id with
  | some o => o
  | none => if seen colName > 0 then wrap32 (seen colName + 1) else 0

/-- The field name for a base name and a suffix: the suffix is appended, after
an underscore, when it is positive. -/
def suffixedName (colName : String) (suffix : Int) : String :=
  if suffix > 0 then colName ++ "_" ++ fmtInt suffix else colName

/-- One iteration of the loop of `columnsToStruct`, on column `c` at index
`i`. -/
def synthStep (req : plugin.CodeGenRequest) (st : synthState) (i : Nat) (c : tsColumn) :
    synthState :=
  let colName := columnName c.Column i
  let suffix := chooseSuffix st.seen st.suffixes colName c.id
  { seen := fun k => if k = colName then wrap32 (st.seen colName + 1) else st.seen k,
    suffixes := fun k => if k = c.id then some suffix else st.suffixes k,
    Fields := st.Fields ++
      [{ Name := suffixedName colName suffix, Typ := makeTsType req c.Column }] }

/-- The loop of `columnsToStruct` from index `i` on. -/
def synthLoop (req : plugin.CodeGenRequest) : synthState → Nat → List tsColumn → synthState
  | st, _, [] => st
  | st, i, c :: cs => synthLoop req (synthStep req st i c) (i + 1) cs

/-- The state `columnsToStruct` starts from: two empty maps, no field. -/
def synthInit : synthState :=
  { seen := fun _ => 0, suffixes := fun _ => none, Fields := [] }

/-- The function `columnsToStruct`. -/
def columnsToStruct (req : plugin.CodeGenRequest) (name : String) (columns : List tsColumn) :
    Struct :=
  { Name := name, Fields := (synthLoop req synthInit 0 columns).Fields }

/-! ### Queries -/

/-- The inner loop of the reuse search of `buildQueries`, from index `i` on:
`same` is cleared at every field whose name, type or table differs from the
query column at the same index. The loop runs only on lists of equal length. -/
def sameLoop (req : plugin.CodeGenRequest) (s : Struct) :
    Bool → Nat → List Field → List plugin.Column → Bool
  | same, _, [], _ => same
  | same, _, _ :: _, [] => same
  | same, i, f :: fs, c :: cs =>
    let sameName := decide (f.Name = columnName c i)
    let sameType := decide (f.Typ = trimmedTsType req c)
    let sameTable := sdk.SameTableName c.Table s.Table req.Catalog.DefaultSchema
    sameLoop req s (if !sameName || !sameType || !sameTable then false else same) (i + 1) fs cs

/-- The reuse search of `buildQueries`: the first record with as many fields as
the query has columns on which the inner loop leaves `same` set. -/
def findStruct (req : plugin.CodeGenRequest) (query : plugin.Query) : List Struct → Option Struct
  | [] => none
  | s :: rest =>
    if s.Fields.length ≠ query.Columns.length then findStruct req query rest
    else if sameLoop req s true 0 s.Fields query.Columns then some s
    else findStruct req query rest

/-- The columns of a query result from index `i` on, each with its index,
converted to `int32`, as identity. -/
def rowColumns : Nat → List plugin.Column → List tsColumn
  | _, [] => []
  | i, c :: cs => { id := wrap32 i, Column := c } :: rowColumns (i + 1) cs

/-- The argument list `buildQueries` gives a query. -/
def queryArgs (req : plugin.CodeGenRequest) (query : plugin.Query) : List QueryValue :=
  if query.Params.length > 4 then
    [{ Emit := true,
       Name := "arg",
       Struct := some (columnsToStruct req (query.Name ++ "Params")
         (query.Params.map fun p => { id := p.Number, Column := p.Column })) }]
  else
    query.Params.map fun p => { Name := paramName p, Typ := makeTsType req p.Column }

/-- The return value `buildQueries` gives a query. -/
def queryRet (req : plugin.CodeGenRequest) (structs : List Struct) (query : plugin.Query) :
    QueryValue :=
  match query.Columns with
  | [] => {}
  | [c] => { Name := columnName c 0, Typ := makeTsType req c }
  | _ :: _ :: _ =>
    match findStruct req query structs with
    | some gs => { Emit := false, Name := "i", Struct := some gs }
    | none =>
      { Emit := true,
        Name := "i",
        Struct := some (columnsToStruct req (query.Name ++ "Row") (rowColumns 0 query.Columns)) }

/-- The body of the loop of `buildQueries`: the descriptor of one query. -/
def buildQuery (req : plugin.CodeGenRequest) (structs : List Struct) (query : plugin.Query) :
    Query :=
  { Cmd := query.Cmd,
    Comments := query.Comments,
    MethodName := sdk.LowerTitle query.Name,
    SQL := query.Text,
    Args := queryArgs req query,
    Ret := queryRet req structs query }

/-- The function `buildQueries`. -/
def buildQueries (req : plugin.CodeGenRequest) (structs : List Struct) : List Query :=
  req.Queries.map (buildQuery req structs)

/-! ### Rendering of a type (`codegen.go`) -/

/-- The struct `PrimitiveType`. -/
structure PrimitiveType where
  InnerType : String := ""
  IsArray : Bool := false
  IsNullable : Bool := false
deriving DecidableEq

/-- The call `io.WriteString(w, s)` on a writer that keeps what is written,
as the `bytes.Buffer` of the tests does: `w` is the text written so far. -/
def WriteString (w : String) (s : String) : String :=
  w ++ s

/-- The method `PrimitiveType.EmitCode`: the text of the writer after the
call, from the text `w` before it. -/
def PrimitiveType.EmitCode (t : PrimitiveType) (w : String) : String :=
  let w := if t.InnerType = "" then WriteString w "void" else WriteString w t.InnerType
  let w := if t.IsArray then WriteString w "[]" else w
  if t.IsNullable then WriteString w " | null" else w

/-- The helper `emitString` of `codegen_test.go`: what `EmitCode` writes to a
new buffer. -/
def emitString (t : PrimitiveType) : String :=
  t.EmitCode ""


/-! ## Definitions the statements use -/

/-- The schemas the builders read: all but `pg_catalog`, in catalog order. -/
def nonSystemSchemas (req : plugin.CodeGenRequest) : List plugin.Schema :=
  req.Catalog.Schemas.filter (fun s => s.Name ≠ "pg_catalog")

/-- The table a column comes from, with the default schema filled in where the
column names its table without schema; `none` for a column without table. -/
def sourceTable (defaultSchema : String) (c : plugin.Column) : Option plugin.Identifier :=
  c.Table.map fun t =>
    { t with Schema := if t.Schema = "" then defaultSchema else t.Schema }

/-- The reuse-matching conditions, position by position: the record has as many
fields as the query has columns, and at every position the field name is the
column's derived name, the field type is the column's resolved type without a
leading `models.`, and `sdk.SameTableName` accepts the column's table for the
record's table under the default schema. -/
def reuseMatch (req : plugin.CodeGenRequest) (query : plugin.Query) (s : Struct) : Prop :=
  s.Fields.length = query.Columns.length ∧
  ∀ (i : Nat) (f : Field) (c : plugin.Column),
    s.Fields[i]? = some f → query.Columns[i]? = some c →
      f.Name = columnName c i ∧
      f.Typ = trimmedTsType req c ∧
      sdk.SameTableName c.Table s.Table req.Catalog.DefaultSchema = true

/-- What the reuse matching reads of a column: name, type name and the two
flags. -/
def columnShape (c : plugin.Column) : String × plugin.Identifier × Bool × Bool :=
  (c.Name, c.Typ, c.NotNull, c.IsArray)

/-- The record `buildQueries` synthesizes for the result of a query: named
`<query name>Row`, built by `columnsToStruct` from the result columns. -/
def rowStruct (req : plugin.CodeGenRequest) (query : plugin.Query) : Struct :=
  columnsToStruct req (query.Name ++ "Row") (rowColumns 0 query.Columns)

/-- The column list `buildQueries` hands to `columnsToStruct` for the
parameters of a query: each bound column with the parameter number as identity. -/
def paramColumns (query : plugin.Query) : List tsColumn :=
  query.Params.map fun p => { id := p.Number, Column := p.Column }

/-- The base names of a column list from index `i` on: the derived name of
each column at its position. -/
def baseNames : Nat → List tsColumn → List String
  | _, [] => []
  | i, c :: cs => columnName c.Column i :: baseNames (i + 1) cs

/-- The state of the loop of `columnsToStruct` after its first `k`
iterations. -/
def stateAt (req : plugin.CodeGenRequest) (columns : List tsColumn) (k : Nat) : synthState :=
  synthLoop req synthInit 0 (columns.take k)

/-- The numeric suffix the loop of `columnsToStruct` chooses at index `k`: what
`chooseSuffix` gives on the maps left by the first `k` iterations (0 past the
end of the list). -/
def suffixAt (req : plugin.CodeGenRequest) (columns : List tsColumn) (k : Nat) : Int :=
  match columns[k]? with
  | some c =>
    chooseSuffix (stateAt req columns k).seen (stateAt req columns k).suffixes
      (columnName c.Column k) c.id
  | none => 0

/-- Columns named by `names` with the identities `ids`, position by position. -/
def namedColumns (ids : List Int) (names : List String) : List tsColumn :=
  List.zipWith (fun id name => { id := id, Column := { Name := name } }) ids names

/-- The type names of the static table of `postgresType`: the labels of its
`case` clauses. -/
def staticTypeNames : List String :=
  ["bigserial", "serial8", "pg_catalog.serial8", "bigint", "int8", "pg_catalog.int8",
   "serial", "serial4", "pg_catalog.serial4", "smallserial", "serial2", "pg_catalog.serial2",
   "integer", "int", "int4", "pg_catalog.int4", "smallint", "int2", "pg_catalog.int2",
   "float", "double precision", "float8", "pg_catalog.float8", "real", "float4",
   "pg_catalog.float4",
   "numeric", "pg_catalog.numeric", "money",
   "boolean", "bool", "pg_catalog.bool",
   "json", "jsonb",
   "bytea", "blob", "pg_catalog.bytea",
   "date", "pg_catalog.time", "pg_catalog.timetz", "pg_catalog.timestamp",
   "pg_catalog.timestamptz", "timestamptz", "interval", "pg_catalog.interval",
   "timestamp with time zone",
   "text", "pg_catalog.varchar", "pg_catalog.bpchar", "string", "citext",
   "uuid",
   "inet", "cidr", "macaddr", "macaddr8",
   "ltree", "lquery", "ltxtquery"]

/-- The name an enum is known by in a column type: bare in the default schema,
`schema.name` outside it. -/
def qualifiedEnumName (req : plugin.CodeGenRequest) (schema : plugin.Schema)
    (enum : plugin.Enum) : String :=
  if schema.Name = req.Catalog.DefaultSchema then enum.Name
  else schema.Name ++ "." ++ enum.Name

/-- The default-derived name of a table or enum called `name` in `schema`:
the name itself in the default schema, `schema_name` outside it. -/
def defaultName (req : plugin.CodeGenRequest) (schema : plugin.Schema) (name : String) :
    String :=
  if schema.Name = req.Catalog.DefaultSchema then name else schema.Name ++ "_" ++ name

/-- The enums of the schemas other than `pg_catalog`, each with its schema, in
catalog order. -/
def enumEntries (req : plugin.CodeGenRequest) : List (plugin.Schema × plugin.Enum) :=
  (nonSystemSchemas req).flatMap fun s => s.Enums.map fun e => (s, e)

/-- The first enum, in catalog order and outside `pg_catalog`, whose qualified
name is `columnType`. -/
def firstEnum (req : plugin.CodeGenRequest) (columnType : String) :
    Option (plugin.Schema × plugin.Enum) :=
  (enumEntries req).find? fun p => decide (columnType = qualifiedEnumName req p.1 p.2)

/-- The (schema name, table name) pairs of the tables of the schemas other than
`pg_catalog`, in catalog order. -/
def tableKeys (req : plugin.CodeGenRequest) : List (String × String) :=
  (nonSystemSchemas req).flatMap fun s => s.Tables.map fun t => (s.Name, t.Rel.Name)

/-- The default-derived names of the tables of the schemas other than
`pg_catalog`, in catalog order. -/
def tableDefaultNames (req : plugin.CodeGenRequest) : List String :=
  (nonSystemSchemas req).flatMap fun s => s.Tables.map fun t => defaultName req s t.Rel.Name

/-- A segment with its first character upper-cased and the rest unchanged. -/
def capitalize : List Char → List Char
  | [] => []
  | c :: cs => c.toUpper :: cs

/-- The characters a snake-case name is made of: ASCII lowercase letters,
digits and the underscore. -/
def isSnakeChar (c : Char) : Bool :=
  c.isLower || c.isDigit || c = '_'

/-! ## Sample inputs -/

/-- A table `pets` with a 64-bit key and a nullable text column. -/
def petsTable : plugin.Table :=
  { Rel := { Name := "pets" },
    Columns := [
      { Name := "id", NotNull := true, Typ := { Name := "int8" } },
      { Name := "fur_colour", Typ := { Name := "text" } }] }

/-- A table `owners` with a 32-bit key and a text column. -/
def ownersTable : plugin.Table :=
  { Rel := { Name := "owners" },
    Columns := [
      { Name := "id", NotNull := true, Typ := { Name := "int4" } },
      { Name := "full_name", NotNull := true, Typ := { Name := "text" } }] }

/-- The schema `public` holding `pets`, `owners` and an enum. -/
def petsSchema : plugin.Schema :=
  { Name := "public",
    Tables := [petsTable, ownersTable],
    Enums := [{ Name := "mood", Vals := ["happy", "very_sad"] }] }

/-- A query that selects the two columns of `pets`. -/
def petsQuery : plugin.Query :=
  { Name := "ListPets",
    Cmd := ":many",
    Columns := [
      { Name := "id", NotNull := true, Typ := { Name := "int8" }, Table := some { Name := "pets" } },
      { Name := "fur_colour", Typ := { Name := "text" }, Table := some { Name := "pets" } }] }

/-- A join that selects the two keys, both named `id`, one from each table. -/
def joinQuery : plugin.Query :=
  { Name := "ListPairs",
    Cmd := ":many",
    Columns := [
      { Name := "id", NotNull := true, Typ := { Name := "int8" }, Table := some { Name := "pets" } },
      { Name := "id", NotNull := true, Typ := { Name := "int4" },
        Table := some { Name := "owners" } }] }

/-- A statement with five parameters and no result column. -/
def updateQuery : plugin.Query :=
  { Name := "UpdatePet",
    Cmd := ":exec",
    Params := [
      { Number := 1, Column := { Name := "fur_colour", Typ := { Name := "text" } } },
      { Number := 2, Column := { Name := "id", NotNull := true, Typ := { Name := "int8" } } },
      { Number := 3, Column := { Name := "id", NotNull := true, Typ := { Name := "int4" } } },
      { Number := 4, Column := { Typ := { Name := "bool" } } },
      { Number := 5, Column := { Name := "full_name", Typ := { Name := "text" } } }] }

/-- A PostgreSQL request over the schema `public`. -/
def petsRequest : plugin.CodeGenRequest :=
  { Settings := { Engine := "postgresql" },
    Catalog := { DefaultSchema := "public", Schemas := [petsSchema] },
    Queries := [petsQuery, joinQuery, updateQuery] }

/-- A table whose first column has the empty name. -/
def blankTable : plugin.Table :=
  { Rel := { Name := "t" },
    Columns := [
      { Name := "", NotNull := true, Typ := { Name := "int8" } },
      { Name := "b", Typ := { Name := "text" } }] }

/-- The schema `public` holding only `blankTable`. -/
def blankSchema : plugin.Schema :=
  { Name := "public", Tables := [blankTable] }

/-- A query whose result columns are the two columns of `blankTable`. -/
def blankQuery : plugin.Query :=
  { Name := "ListT",
    Cmd := ":many",
    Columns := [
      { Name := "", NotNull := true, Typ := { Name := "int8" }, Table := some { Name := "t" } },
      { Name := "b", Typ := { Name := "text" }, Table := some { Name := "t" } }] }

/-- A PostgreSQL request over `blankSchema`. -/
def blankRequest : plugin.CodeGenRequest :=
  { Settings := { Engine := "postgresql" },
    Catalog := { DefaultSchema := "public", Schemas := [blankSchema] },
    Queries := [blankQuery] }

/-- A request whose catalog defines, in the default schema `public`, an enum
named `text` like the built-in type, and in the schema `shop` two enums
`status`, the second with the same name as the first. -/
def enumRequest : plugin.CodeGenRequest :=
  { Settings := { Engine := "postgresql", Rename := [("shop_status", "OrderStatus")] },
    Catalog :=
      { DefaultSchema := "public",
        Schemas := [
          { Name := "pg_catalog", Enums := [{ Name := "mood", Vals := ["hidden"] }] },
          { Name := "public",
            Enums := [{ Name := "text", Vals := ["a"] }, { Name := "mood", Vals := ["happy", "very_sad"] }] },
          { Name := "shop",
            Enums := [{ Name := "status", Vals := ["open"] }, { Name := "status", Vals := ["shut"] }] }] } }

/-- A request with the table `audit_log` in the default schema `public` and
the table `log` in the schema `audit`. -/
def auditRequest : plugin.CodeGenRequest :=
  { Settings := { Engine := "postgresql" },
    Catalog :=
      { DefaultSchema := "public",
        Schemas := [
          { Name := "public", Tables := [{ Rel := { Name := "audit_log" } }] },
          { Name := "audit", Tables := [{ Rel := { Name := "log" } }] }] } }

end typescript

/-! ## Indexing lists -/

theorem getElem?_some_of_lt {α : Type} (l : List α) (k : Nat) (h : k < l.length) :
    ∃ x, l[k]? = some x :=
  ⟨l[k], List.getElem?_eq_getElem h⟩

theorem lt_of_getElem?_some {α : Type} {l : List α} {k : Nat} {x : α} (h : l[k]? = some x) :
    k < l.length := by
  obtain ⟨h1, _⟩ := List.getElem?_eq_some.1 h
  exact h1

/-! ## Decimal printing -/



theorem digitChar_toNat (m : Nat) (h : m < 10) : (Nat.digitChar m).toNat - 48 = m := by
  interval_cases m <;> rfl

theorem toDigitsCore_decode (fuel n : Nat) (ds : List Char) (h : n < fuel) :
    (Nat.toDigitsCore 10 fuel n ds).foldl (fun a c => a * 10 + (c.toNat - 48)) 0 =
      ds.foldl (fun a c => a * 10 + (c.toNat - 48)) n := by
  induction fuel generalizing n ds with
  | zero => omega
  | succ fuel ih =>
    rw [Nat.toDigitsCore]
    by_cases h0 : n / 10 = 0
    · rw [if_pos h0, List.foldl_cons, digitChar_toNat _ (Nat.mod_lt _ (by decide))]
      congr 1
      omega
    · rw [if_neg h0, ih (n / 10) _ (by omega), List.foldl_cons,
        digitChar_toNat _ (Nat.mod_lt _ (by decide))]
      congr 1
      omega

theorem natRepr_injective (m n : Nat) (h : Nat.repr m = Nat.repr n) : m = n := by
  have h1 : Nat.toDigits 10 m = Nat.toDigits 10 n := by
    have h2 := congrArg String.data h
    simpa [Nat.repr, List.asString] using h2
  have hm := toDigitsCore_decode (m + 1) m [] (Nat.lt_succ_self m)
  have hn := toDigitsCore_decode (n + 1) n [] (Nat.lt_succ_self n)
  simp only [List.foldl_nil] at hm hn
  unfold Nat.toDigits at h1
  rw [← hm, ← hn, h1]

theorem fmtInt_injective (a b : Int) (ha : 0 ≤ a) (hb : 0 ≤ b) (h : fmtInt a = fmtInt b) :
    a = b := by
  obtain ⟨m, rfl⟩ := Int.eq_ofNat_of_zero_le ha
  obtain ⟨n, rfl⟩ := Int.eq_ofNat_of_zero_le hb
  have h1 : Nat.repr m = Nat.repr n := h
  rw [natRepr_injective m n h1]

theorem wrap32_eq (x : Int) (h0 : 0 ≤ x) (h1 : x < 2147483648) : wrap32 x = x := by
  unfold wrap32
  omega

theorem digitChar_ne_underscore (m : Nat) (h : m < 10) : Nat.digitChar m ≠ '_' := by
  interval_cases m <;> decide

theorem toDigitsCore_no_underscore (fuel n : Nat) (ds : List Char)
    (hds : ∀ c ∈ ds, c ≠ '_') : ∀ c ∈ Nat.toDigitsCore 10 fuel n ds, c ≠ '_' := by
  induction fuel generalizing n ds with
  | zero => simpa [Nat.toDigitsCore] using hds
  | succ fuel ih =>
    have hcons : ∀ c ∈ Nat.digitChar (n % 10) :: ds, c ≠ '_' := by
      intro c hc
      rcases List.mem_cons.1 hc with rfl | hc
      · exact digitChar_ne_underscore _ (Nat.mod_lt _ (by decide))
      · exact hds c hc
    rw [Nat.toDigitsCore]
    by_cases h0 : n / 10 = 0
    · rw [if_pos h0]
      exact hcons
    · rw [if_neg h0]
      exact ih (n / 10) _ hcons

theorem natRepr_no_underscore (n : Nat) : '_' ∉ (toString n).data := by
  intro h
  have h1 : '_' ∈ Nat.toDigits 10 n := h
  exact toDigitsCore_no_underscore (n + 1) n [] (by simp) '_' h1 rfl

/-- Two texts split at an underscore that is the last one of each are equal
part by part. -/
theorem append_underscore_inj (p q r t : List Char) (hp : '_' ∉ p) (hq : '_' ∉ q)
    (h : p ++ '_' :: r = q ++ '_' :: t) : p = q ∧ r = t := by
  induction p generalizing q with
  | nil =>
    cases q with
    | nil => exact ⟨rfl, (List.cons.inj h).2⟩
    | cons y q =>
      have hy : '_' = y := (List.cons.inj h).1
      exact absurd (hy ▸ List.mem_cons_self _ _) hq
  | cons x p ih =>
    cases q with
    | nil =>
      have hx : x = '_' := (List.cons.inj h).1
      exact absurd (hx ▸ List.mem_cons_self _ _) hp
    | cons y q =>
      have hxy : x = y := (List.cons.inj h).1
      have := ih q (fun hm => hp (List.mem_cons_of_mem _ hm))
        (fun hm => hq (List.mem_cons_of_mem _ hm)) (List.cons.inj h).2
      exact ⟨by rw [hxy, this.1], this.2⟩

theorem suffixed_inj (a b : String) (m n : Nat)
    (h : a ++ "_" ++ toString m = b ++ "_" ++ toString n) : a = b := by
  have h1 := congrArg (fun s : String => s.data.reverse) h
  simp only [String.data_append, List.reverse_append] at h1
  have hu : ("_" : String).data.reverse = ['_'] := rfl
  rw [hu] at h1
  have h2 := append_underscore_inj (toString m).data.reverse (toString n).data.reverse
    a.data.reverse b.data.reverse
    (by simpa using natRepr_no_underscore m) (by simpa using natRepr_no_underscore n)
    (by simpa using h1)
  exact String.ext (List.reverse_injective h2.2)

/-! ## The library functions -/

theorem char_eq_of_toNat_eq (a b : Char) (h : a.toNat = b.toNat) : a = b := by
  apply Char.ext
  apply UInt32.ext
  exact h

theorem stringLess_iff_lt (a b : List Char) : stringLess a b = true ↔ a < b := by
  induction a generalizing b with
  | nil =>
    cases b with
    | nil => simp [stringLess]
    | cons b bs => simpa [stringLess] using List.Lex.nil
  | cons a as ih =>
    cases b with
    | nil => simp [stringLess]
    | cons b bs =>
      have hc : ∀ x y : Char, x < y ↔ x.toNat < y.toNat := fun _ _ => Iff.rfl
      rw [stringLess]
      by_cases h1 : a.toNat < b.toNat
      · simp only [h1, if_true, true_iff]
        exact List.Lex.rel ((hc a b).2 h1)
      · by_cases h2 : b.toNat < a.toNat
        · simp only [h1, h2, if_false, if_true, Bool.false_eq_true, false_iff]
          intro h
          cases h with
          | rel h => exact h1 ((hc a b).1 h)
          | cons _ => exact h1 (absurd h2 h1)
        · have hab : a = b := char_eq_of_toNat_eq a b (by omega)
          subst hab
          simp only [h1, if_false, ih]
          constructor
          · intro h
            exact List.Lex.cons h
          · intro h
            cases h with
            | rel h => exact absurd ((hc a a).1 h) h1
            | cons h => exact h

theorem stringLess_data (a b : String) : stringLess a.data b.data = true ↔ a < b := by
  rw [stringLess_iff_lt, String.lt_iff_toList_lt]
  rfl

namespace sort

theorem insertLess_perm {α : Type} (less : α → α → Bool) (x : α) (l : List α) :
    (insertLess less x l).Perm (x :: l) := by
  induction l with
  | nil => exact List.Perm.refl _
  | cons y ys ih =>
    rw [insertLess]
    split
    · exact List.Perm.refl _
    · exact (List.Perm.cons y ih).trans (List.Perm.swap x y ys)

theorem foldl_insertLess_perm {α : Type} (less : α → α → Bool) (xs acc : List α) :
    (xs.foldl (fun sorted x => insertLess less x sorted) acc).Perm (acc ++ xs) := by
  induction xs generalizing acc with
  | nil => simp
  | cons x xs ih =>
    rw [List.foldl_cons]
    refine (ih _).trans ?_
    refine ((insertLess_perm less x acc).append_right xs).trans ?_
    simpa using (@List.perm_middle _ x acc xs).symm

theorem Slice_perm {α : Type} (less : α → α → Bool) (xs : List α) : (Slice less xs).Perm xs := by
  simpa [Slice] using foldl_insertLess_perm less xs []

theorem insertLess_sorted {α : Type} (key : α → String) (x : α) (l : List α)
    (h : l.Pairwise (fun a b => key a ≤ key b)) :
    (insertLess (fun a b => stringLess (key a).data (key b).data) x l).Pairwise
      (fun a b => key a ≤ key b) := by
  induction l with
  | nil => simp [insertLess]
  | cons y ys ih =>
    rw [insertLess]
    rw [List.pairwise_cons] at h
    by_cases hxy : stringLess (key x).data (key y).data = true
    · rw [if_pos hxy]
      have hlt : key x < key y := (stringLess_data _ _).1 hxy
      refine List.pairwise_cons.2 ⟨?_, List.pairwise_cons.2 h⟩
      intro z hz
      rcases List.mem_cons.1 hz with rfl | hz
      · exact le_of_lt hlt
      · exact le_trans (le_of_lt hlt) (h.1 z hz)
    · rw [if_neg hxy]
      have hle : key y ≤ key x := not_lt.1 (fun hl => hxy ((stringLess_data _ _).2 hl))
      refine List.pairwise_cons.2 ⟨?_, ih h.2⟩
      intro z hz
      rcases List.mem_cons.1 ((insertLess_perm _ x ys).subset hz) with rfl | hz
      · exact hle
      · exact h.1 z hz

theorem foldl_insertLess_sorted {α : Type} (key : α → String) (xs acc : List α)
    (h : acc.Pairwise (fun a b => key a ≤ key b)) :
    (xs.foldl (fun sorted x => insertLess (fun a b => stringLess (key a).data (key b).data)
      x sorted) acc).Pairwise (fun a b => key a ≤ key b) := by
  induction xs generalizing acc with
  | nil => simpa using h
  | cons x xs ih =>
    rw [List.foldl_cons]
    exact ih _ (insertLess_sorted key x acc h)

theorem Slice_sorted {α : Type} (key : α → String) (xs : List α) :
    (Slice (fun a b => stringLess (key a).data (key b).data) xs).Pairwise
      (fun a b => key a ≤ key b) :=
  foldl_insertLess_sorted key xs [] List.Pairwise.nil

end sort

namespace typescript

/-! ## Enums and models -/

theorem foldl_collect {α β : Type} (f : α → List β) (p : α → Bool) (xs : List α) (acc : List β) :
    xs.foldl (fun out x => if p x = true then out else out ++ f x) acc =
      acc ++ (xs.filter (fun x => !p x)).flatMap f := by
  induction xs generalizing acc with
  | nil => simp
  | cons x xs ih =>
    rw [List.foldl_cons, ih]
    by_cases h : p x = true
    · simp [h]
    · simp [h]

theorem collectEnums_eq (req : plugin.CodeGenRequest) :
    collectEnums req = (nonSystemSchemas req).flatMap (fun s => s.Enums.map (enumOf req s)) := by
  have h := foldl_collect (fun s : plugin.Schema => s.Enums.map (enumOf req s))
    (fun s => decide (s.Name = "pg_catalog")) req.Catalog.Schemas []
  simp only [decide_eq_true_eq, List.nil_append] at h
  rw [collectEnums, h, nonSystemSchemas]
  congr 1
  apply List.filter_congr
  intro s _
  simp

theorem collectStructs_eq (req : plugin.CodeGenRequest) :
    collectStructs req = (nonSystemSchemas req).flatMap (fun s => s.Tables.map (structOf req s)) := by
  have h := foldl_collect (fun s : plugin.Schema => s.Tables.map (structOf req s))
    (fun s => decide (s.Name = "pg_catalog")) req.Catalog.Schemas []
  simp only [decide_eq_true_eq, List.nil_append] at h
  rw [collectStructs, h, nonSystemSchemas]
  congr 1
  apply List.filter_congr
  intro s _
  simp

theorem buildModels_perm (req : plugin.CodeGenRequest) :
    (buildModels req).Perm (collectStructs req) := by
  unfold buildModels
  simp only
  split
  · exact sort.Slice_perm _ _
  · exact List.Perm.refl _

theorem buildEnums_perm (req : plugin.CodeGenRequest) :
    (buildEnums req).Perm (collectEnums req) := by
  unfold buildEnums
  simp only
  split
  · exact sort.Slice_perm _ _
  · exact List.Perm.refl _

theorem mem_buildModels (req : plugin.CodeGenRequest) (s : Struct) :
    s ∈ buildModels req ↔
      ∃ schema ∈ req.Catalog.Schemas, schema.Name ≠ "pg_catalog" ∧
        ∃ table ∈ schema.Tables, structOf req schema table = s := by
  rw [(buildModels_perm req).mem_iff, collectStructs_eq, nonSystemSchemas]
  simp only [List.mem_flatMap, List.mem_filter, List.mem_map, decide_eq_true_eq]
  constructor
  · rintro ⟨schema, ⟨h1, h2⟩, table, h3, h4⟩
    exact ⟨schema, h1, h2, table, h3, h4⟩
  · rintro ⟨schema, h1, h2, table, h3, h4⟩
    exact ⟨schema, ⟨h1, h2⟩, table, h3, h4⟩


/-! ## Reuse matching -/

theorem buildQueries_getElem? (req : plugin.CodeGenRequest) (structs : List Struct) (i : Nat) :
    (buildQueries req structs)[i]? = (req.Queries[i]?).map (buildQuery req structs) := by
  simp [buildQueries]

theorem buildQueries_eq_of_getElem? {req : plugin.CodeGenRequest} {structs : List Struct}
    {i : Nat} {query : plugin.Query} {q : Query} (hquery : req.Queries[i]? = some query)
    (hq : (buildQueries req structs)[i]? = some q) : q = buildQuery req structs query := by
  rw [buildQueries_getElem?, hquery] at hq
  simpa using hq.symm

theorem sameLoop_eq_true (req : plugin.CodeGenRequest) (s : Struct) (same : Bool) (i : Nat)
    (fs : List Field) (cs : List plugin.Column) :
    sameLoop req s same i fs cs = true ↔
      same = true ∧
      ∀ (k : Nat) (f : Field) (c : plugin.Column), fs[k]? = some f → cs[k]? = some c →
        f.Name = columnName c (i + k) ∧
        f.Typ = trimmedTsType req c ∧
        sdk.SameTableName c.Table s.Table req.Catalog.DefaultSchema = true := by
  induction fs generalizing same i cs with
  | nil => simp [sameLoop]
  | cons f fs ih =>
    cases cs with
    | nil => simp [sameLoop]
    | cons c cs =>
      rw [sameLoop, ih]
      constructor
      · rintro ⟨h1, h2⟩
        have h3 : f.Name = columnName c i ∧ f.Typ = trimmedTsType req c ∧
            sdk.SameTableName c.Table s.Table req.Catalog.DefaultSchema = true ∧ same = true := by
          by_cases a : f.Name = columnName c i <;> by_cases b : f.Typ = trimmedTsType req c <;>
            cases hT : sdk.SameTableName c.Table s.Table req.Catalog.DefaultSchema <;>
            simp_all
        refine ⟨h3.2.2.2, ?_⟩
        intro k f' c' hf hc
        cases k with
        | zero =>
          simp only [List.getElem?_cons_zero, Option.some.injEq] at hf hc
          subst hf hc
          exact ⟨h3.1, h3.2.1, h3.2.2.1⟩
        | succ k =>
          simp only [List.getElem?_cons_succ] at hf hc
          have := h2 k f' c' hf hc
          rwa [Nat.add_assoc, Nat.add_comm 1 k] at this
      · rintro ⟨h1, h2⟩
        have h0 := h2 0 f c (by simp) (by simp)
        refine ⟨?_, ?_⟩
        · simp [h0.1, h0.2.1, h0.2.2, h1]
        · intro k f' c' hf hc
          have := h2 (k + 1) f' c' (by simpa using hf) (by simpa using hc)
          rwa [Nat.add_assoc, Nat.add_comm 1 k]

/-- The test `buildQueries` runs on a known record decides `reuseMatch`. -/
theorem reuseMatch_iff (req : plugin.CodeGenRequest) (query : plugin.Query) (s : Struct) :
    reuseMatch req query s ↔
      (s.Fields.length = query.Columns.length ∧
        sameLoop req s true 0 s.Fields query.Columns = true) := by
  rw [sameLoop_eq_true]
  simp [reuseMatch]

theorem findStruct_none (req : plugin.CodeGenRequest) (query : plugin.Query)
    (structs : List Struct) :
    findStruct req query structs = none ↔ ∀ s ∈ structs, ¬ reuseMatch req query s := by
  induction structs with
  | nil => simp [findStruct]
  | cons s rest ih =>
    rw [findStruct]
    by_cases h1 : s.Fields.length = query.Columns.length
    · by_cases h2 : sameLoop req s true 0 s.Fields query.Columns = true
      · have hm : reuseMatch req query s := (reuseMatch_iff req query s).2 ⟨h1, h2⟩
        simp [h1, h2, hm]
      · have hm : ¬ reuseMatch req query s := fun h => h2 ((reuseMatch_iff req query s).1 h).2
        simp [h1, h2, hm, ih]
    · have hm : ¬ reuseMatch req query s := fun h => h1 ((reuseMatch_iff req query s).1 h).1
      simp [h1, hm, ih]

theorem findStruct_some (req : plugin.CodeGenRequest) (query : plugin.Query)
    (structs : List Struct) (s : Struct) :
    findStruct req query structs = some s ↔
      ∃ pre post, structs = pre ++ s :: post ∧ reuseMatch req query s ∧
        ∀ t ∈ pre, ¬ reuseMatch req query t := by
  induction structs with
  | nil => simp [findStruct]
  | cons a rest ih =>
    rw [findStruct]
    by_cases hm : reuseMatch req query a
    · have h := (reuseMatch_iff req query a).1 hm
      simp only [h.1, ne_eq, not_true_eq_false, if_false, h.2, if_true, Option.some.injEq]
      constructor
      · rintro rfl
        exact ⟨[], rest, rfl, hm, by simp⟩
      · rintro ⟨pre, post, heq, _, hpre⟩
        cases pre with
        | nil => simpa using (List.cons.inj heq).1
        | cons b pre =>
          have hb : a = b := (List.cons.inj heq).1
          exact absurd (hb ▸ hm) (hpre b (by simp))
    · have hfind : (if a.Fields.length ≠ query.Columns.length then findStruct req query rest
          else if sameLoop req a true 0 a.Fields query.Columns = true then some a
          else findStruct req query rest) = findStruct req query rest := by
        by_cases h1 : a.Fields.length = query.Columns.length
        · have h2 : ¬ sameLoop req a true 0 a.Fields query.Columns = true :=
            fun h2 => hm ((reuseMatch_iff req query a).2 ⟨h1, h2⟩)
          simp [h1, h2]
        · simp [h1]
      rw [hfind, ih]
      constructor
      · rintro ⟨pre, post, heq, hs, hpre⟩
        refine ⟨a :: pre, post, by simp [heq], hs, ?_⟩
        intro t ht
        rcases List.mem_cons.1 ht with rfl | ht
        · exact hm
        · exact hpre t ht
      · rintro ⟨pre, post, heq, hs, hpre⟩
        cases pre with
        | nil =>
          have ha : a = s := (List.cons.inj heq).1
          exact absurd (ha ▸ hs) hm
        | cons b pre =>
          refine ⟨pre, post, (List.cons.inj heq).2, hs, ?_⟩
          intro t ht
          exact hpre t (List.mem_cons_of_mem _ ht)

theorem queryRet_many (req : plugin.CodeGenRequest) (structs : List Struct)
    (query : plugin.Query) (h : 1 < query.Columns.length) :
    queryRet req structs query =
      match findStruct req query structs with
      | some gs => { Emit := false, Name := "i", Struct := some gs }
      | none => { Emit := true, Name := "i", Struct := some (rowStruct req query) } := by
  unfold queryRet
  split
  · rename_i h0
    rw [h0] at h
    simp at h
  · rename_i c h0
    rw [h0] at h
    simp at h
  · rfl

theorem queryRet_of_find (req : plugin.CodeGenRequest) (structs : List Struct)
    (query : plugin.Query) (h : 1 < query.Columns.length) (s : Struct)
    (hs : findStruct req query structs = some s) :
    queryRet req structs query = { Emit := false, Name := "i", Struct := some s } := by
  rw [queryRet_many req structs query h, hs]

theorem queryRet_of_none (req : plugin.CodeGenRequest) (structs : List Struct)
    (query : plugin.Query) (h : 1 < query.Columns.length)
    (hs : ∀ s ∈ structs, ¬ reuseMatch req query s) :
    queryRet req structs query =
      { Emit := true, Name := "i", Struct := some (rowStruct req query) } := by
  rw [queryRet_many req structs query h, (findStruct_none req query structs).2 hs]

theorem SameTableName_iff (defaultSchema : String) (c : plugin.Column) (f : plugin.Identifier) :
    sdk.SameTableName c.Table f defaultSchema = true ↔ sourceTable defaultSchema c = some f := by
  unfold sdk.SameTableName sourceTable
  cases c.Table with
  | none => simp
  | some t =>
    cases f with
    | mk fc fs fn =>
      simp only [Bool.and_eq_true, decide_eq_true_eq, Option.map_some', Option.some.injEq,
        plugin.Identifier.mk.injEq]
      constructor
      · rintro ⟨⟨h1, h2⟩, h3⟩
        exact ⟨h1, h2, h3⟩
      · rintro ⟨h1, h2, h3⟩
        exact ⟨⟨h1, h2⟩, h3⟩


/-! ## Queries -/

theorem trimmedTsType_congr (req : plugin.CodeGenRequest) (c d : plugin.Column)
    (h : columnShape c = columnShape d) : trimmedTsType req c = trimmedTsType req d := by
  simp only [columnShape, Prod.mk.injEq] at h
  obtain ⟨_, h2, h3, h4⟩ := h
  simp [trimmedTsType, makeTsType, tsInnerType, postgresType, h2, h3, h4]

theorem structOf_reuseMatch (req : plugin.CodeGenRequest) (schema : plugin.Schema)
    (table : plugin.Table) (query : plugin.Query)
    (hnames : ∀ c ∈ table.Columns, c.Name ≠ "")
    (hcols : query.Columns.map columnShape = table.Columns.map columnShape)
    (htab : ∀ c ∈ query.Columns,
      sdk.SameTableName c.Table { Schema := schema.Name, Name := table.Rel.Name }
        req.Catalog.DefaultSchema = true) :
    reuseMatch req query (structOf req schema table) := by
  have hlen : query.Columns.length = table.Columns.length := by
    simpa using congrArg List.length hcols
  refine ⟨by simp [structOf, hlen], ?_⟩
  intro i f c hf hc
  have hi : i < table.Columns.length := by
    rw [← hlen]
    exact lt_of_getElem?_some hc
  obtain ⟨tc, htc⟩ := getElem?_some_of_lt table.Columns i hi
  have hshape : columnShape c = columnShape tc := by
    have h := congrArg (fun l => l[i]?) hcols
    simpa [List.getElem?_map, hc, htc] using h
  simp only [structOf, List.getElem?_map, htc, Option.map_some', Option.some.injEq] at hf
  subst hf
  have hname : c.Name = tc.Name := by
    simp only [columnShape, Prod.mk.injEq] at hshape
    exact hshape.1
  have hne : c.Name ≠ "" := by
    rw [hname]
    exact hnames _ (List.getElem?_mem htc)
  refine ⟨?_, ?_, ?_⟩
  · simp [columnName, hne, hname.symm]
  · exact (trimmedTsType_congr req _ _ hshape).symm
  · exact htab c (List.getElem?_mem hc)

theorem queryArgs_many (req : plugin.CodeGenRequest) (query : plugin.Query)
    (h : 4 < query.Params.length) :
    queryArgs req query =
      [{ Emit := true, Name := "arg",
         Struct := some (columnsToStruct req (query.Name ++ "Params") (paramColumns query)) }] := by
  simp [queryArgs, h, paramColumns]

theorem queryArgs_few (req : plugin.CodeGenRequest) (query : plugin.Query)
    (h : query.Params.length ≤ 4) :
    queryArgs req query =
      query.Params.map (fun p => { Name := paramName p, Typ := makeTsType req p.Column }) := by
  have h0 : ¬ 4 < query.Params.length := by omega
  simp [queryArgs, h0]

theorem queryRet_struct_isSome (req : plugin.CodeGenRequest) (structs : List Struct)
    (query : plugin.Query) :
    (queryRet req structs query).Struct.isSome = true ↔ 1 < query.Columns.length := by
  unfold queryRet
  split
  · rename_i h0
    simp [h0]
  · rename_i c h0
    simp [h0]
  · rename_i a b l h0
    cases findStruct req query structs <;> simp [h0]

theorem queryRet_absent (req : plugin.CodeGenRequest) (structs : List Struct)
    (query : plugin.Query) (h : query.Columns.length = 0) :
    queryRet req structs query = {} := by
  unfold queryRet
  split
  · rfl
  · rename_i c h0
    simp [h0] at h
  · rename_i a b l h0
    simp [h0] at h


/-! ## Struct synthesis -/

theorem synthLoop_append (req : plugin.CodeGenRequest) (st : synthState) (i : Nat)
    (cs : List tsColumn) (c : tsColumn) :
    synthLoop req st i (cs ++ [c]) = synthStep req (synthLoop req st i cs) (i + cs.length) c := by
  induction cs generalizing st i with
  | nil => simp [synthLoop]
  | cons a cs ih =>
    have h : i + 1 + cs.length = i + (cs.length + 1) := by omega
    rw [List.cons_append, synthLoop, ih, synthLoop, List.length_cons, h]

theorem stateAt_zero (req : plugin.CodeGenRequest) (columns : List tsColumn) :
    stateAt req columns 0 = synthInit := by
  simp [stateAt, synthLoop]

theorem stateAt_succ (req : plugin.CodeGenRequest) (columns : List tsColumn) (k : Nat)
    (c : tsColumn) (h : columns[k]? = some c) :
    stateAt req columns (k + 1) = synthStep req (stateAt req columns k) k c := by
  have hk : k < columns.length := by
    rcases Nat.lt_or_ge k columns.length with hlt | hge
    · exact hlt
    · rw [List.getElem?_eq_none hge] at h
      cases h
  have hc : columns[k] = c := by
    rw [List.getElem?_eq_getElem hk] at h
    exact Option.some.inj h
  unfold stateAt
  rw [List.take_succ, h]
  simp only [Option.toList_some]
  rw [synthLoop_append, List.length_take, Nat.min_eq_left (Nat.le_of_lt hk), Nat.zero_add]

theorem stateAt_length (req : plugin.CodeGenRequest) (columns : List tsColumn) :
    stateAt req columns columns.length = synthLoop req synthInit 0 columns := by
  simp [stateAt]

theorem baseNames_getElem? (i k : Nat) (columns : List tsColumn) :
    (baseNames i columns)[k]? = (columns[k]?).map (fun c => columnName c.Column (i + k)) := by
  induction columns generalizing i k with
  | nil => simp [baseNames]
  | cons c cs ih =>
    cases k with
    | zero => simp [baseNames]
    | succ k =>
      simp only [baseNames, List.getElem?_cons_succ, ih]
      congr 2
      funext c
      congr 1
      omega

theorem baseNames_length (i : Nat) (columns : List tsColumn) :
    (baseNames i columns).length = columns.length := by
  induction columns generalizing i with
  | nil => simp [baseNames]
  | cons c cs ih => simp [baseNames, ih]

/-- The field the loop appends at index `k`. -/
theorem stateAt_fields (req : plugin.CodeGenRequest) (columns : List tsColumn) (k : Nat)
    (hk : k ≤ columns.length) :
    (stateAt req columns k).Fields.length = k ∧
    ∀ (j : Nat) (c : tsColumn), j < k → columns[j]? = some c →
      (stateAt req columns k).Fields[j]? =
        some { Name := suffixedName (columnName c.Column j) (suffixAt req columns j),
               Typ := makeTsType req c.Column } := by
  induction k with
  | zero =>
    rw [stateAt_zero]
    simp [synthInit]
  | succ k ih =>
    have hk' : k < columns.length := hk
    have hc : columns[k]? = some columns[k] := List.getElem?_eq_getElem hk'
    obtain ⟨ihl, ihf⟩ := ih (Nat.le_of_lt hk')
    rw [stateAt_succ req columns k _ hc]
    refine ⟨by simp [synthStep, ihl], ?_⟩
    intro j c hj hjc
    simp only [synthStep]
    rcases Nat.lt_succ_iff_lt_or_eq.1 hj with hlt | heq
    · rw [List.getElem?_append_left (by omega)]
      exact ihf j c hlt hjc
    · subst heq
      rw [hc] at hjc
      have hcc : columns[j] = c := Option.some.inj hjc
      rw [List.getElem?_append_right (by omega), ihl]
      simp [suffixAt, hc, hcc]

theorem columnsToStruct_fields_length (req : plugin.CodeGenRequest) (name : String)
    (columns : List tsColumn) :
    (columnsToStruct req name columns).Fields.length = columns.length := by
  unfold columnsToStruct
  rw [← stateAt_length]
  exact (stateAt_fields req columns columns.length (Nat.le_refl _)).1

theorem columnsToStruct_field (req : plugin.CodeGenRequest) (name : String)
    (columns : List tsColumn) (k : Nat) (c : tsColumn) (hc : columns[k]? = some c) :
    (columnsToStruct req name columns).Fields[k]? =
      some { Name := suffixedName (columnName c.Column k) (suffixAt req columns k),
             Typ := makeTsType req c.Column } := by
  have hk : k < columns.length := by
    rcases Nat.lt_or_ge k columns.length with hlt | hge
    · exact hlt
    · rw [List.getElem?_eq_none hge] at hc
      cases hc
  unfold columnsToStruct
  rw [← stateAt_length]
  exact (stateAt_fields req columns columns.length (Nat.le_refl _)).2 k c hk hc


/-! ## The maps of the synthesis loop -/

theorem suffixAt_eq (req : plugin.CodeGenRequest) (columns : List tsColumn) (k : Nat)
    (c : tsColumn) (hc : columns[k]? = some c) :
    suffixAt req columns k =
      chooseSuffix (stateAt req columns k).seen (stateAt req columns k).suffixes
        (columnName c.Column k) c.id := by
  simp [suffixAt, hc]

/-- After `k` iterations the map `suffixes` holds, for the identity of every
column met, the suffix that column was given. -/
theorem suffixes_recorded (req : plugin.CodeGenRequest) (columns : List tsColumn) (k : Nat)
    (hk : k ≤ columns.length) (j : Nat) (c : tsColumn) (hj : j < k)
    (hc : columns[j]? = some c) :
    (stateAt req columns k).suffixes c.id = some (suffixAt req columns j) := by
  induction k with
  | zero => omega
  | succ k ih =>
    obtain ⟨ck, hck⟩ := getElem?_some_of_lt columns k hk
    rw [stateAt_succ req columns k ck hck]
    simp only [synthStep]
    by_cases hid : c.id = ck.id
    · rw [if_pos hid, ← suffixAt_eq req columns k ck hck]
      rcases Nat.lt_succ_iff_lt_or_eq.1 hj with hlt | heq
      · have h := ih (Nat.le_of_lt hk) hlt
        rw [suffixAt_eq req columns k ck hck, chooseSuffix, ← hid, h]
      · rw [heq]
    · rw [if_neg hid]
      rcases Nat.lt_succ_iff_lt_or_eq.1 hj with hlt | heq
      · exact ih (Nat.le_of_lt hk) hlt
      · subst heq
        rw [hc] at hck
        exact absurd (congrArg tsColumn.id (Option.some.inj hck)) hid

/-- The map `suffixes` holds nothing for an identity no column met carries. -/
theorem suffixes_fresh (req : plugin.CodeGenRequest) (columns : List tsColumn) (k : Nat)
    (hk : k ≤ columns.length) (id : Int)
    (hnew : ∀ (j : Nat) (cj : tsColumn), j < k → columns[j]? = some cj → cj.id ≠ id) :
    (stateAt req columns k).suffixes id = none := by
  induction k with
  | zero =>
    rw [stateAt_zero]
    rfl
  | succ k ih =>
    obtain ⟨ck, hck⟩ := getElem?_some_of_lt columns k hk
    rw [stateAt_succ req columns k ck hck]
    simp only [synthStep]
    have hne : ¬ id = ck.id := fun h => hnew k ck (Nat.lt_succ_self k) hck h.symm
    rw [if_neg hne]
    exact ih (Nat.le_of_lt hk) (fun j cj hj hcj => hnew j cj (Nat.lt_succ_of_lt hj) hcj)

theorem baseNames_take_succ (columns : List tsColumn) (k : Nat) (c : tsColumn)
    (hc : columns[k]? = some c) :
    (baseNames 0 columns).take (k + 1) =
      (baseNames 0 columns).take k ++ [columnName c.Column k] := by
  rw [List.take_succ, baseNames_getElem?, hc]
  simp

theorem count_take_le (names : List String) (k : Nat) (b : String) :
    (names.take k).count b ≤ k := by
  have h1 := List.count_le_length b (names.take k)
  have h2 := List.length_take_le k names
  omega

/-- On a list of fewer than `2^31` columns the map `seen` holds, for every base
name, the number of columns met with that base name. -/
theorem seen_count (req : plugin.CodeGenRequest) (columns : List tsColumn)
    (hlen : columns.length < 2147483648) (k : Nat) (hk : k ≤ columns.length) (b : String) :
    (stateAt req columns k).seen b = (((baseNames 0 columns).take k).count b : Nat) := by
  induction k generalizing b with
  | zero =>
    rw [stateAt_zero]
    simp [synthInit]
  | succ k ih =>
    obtain ⟨ck, hck⟩ := getElem?_some_of_lt columns k hk
    rw [stateAt_succ req columns k ck hck, baseNames_take_succ columns k ck hck,
      List.count_append, List.count_singleton]
    simp only [synthStep]
    have hle := count_take_le (baseNames 0 columns) k (columnName ck.Column k)
    by_cases hb : b = columnName ck.Column k
    · subst hb
      rw [if_pos rfl, ih (Nat.le_of_lt hk), wrap32_eq _ (by omega) (by omega)]
      simp
    · rw [if_neg hb, ih (Nat.le_of_lt hk)]
      have hb' : ¬ (columnName ck.Column k == b) = true := by
        simpa using fun h => hb h.symm
      rw [if_neg hb']
      simp

/-- The suffix of a column whose identity was not met before: one more than
the number of earlier columns with its base name, or 0 when there is none. -/
theorem suffixAt_fresh (req : plugin.CodeGenRequest) (columns : List tsColumn)
    (hlen : columns.length < 2147483648) (k : Nat) (c : tsColumn)
    (hc : columns[k]? = some c)
    (hnew : ∀ (j : Nat) (cj : tsColumn), j < k → columns[j]? = some cj → cj.id ≠ c.id) :
    suffixAt req columns k =
      if 0 < ((baseNames 0 columns).take k).count (columnName c.Column k) then
        ((((baseNames 0 columns).take k).count (columnName c.Column k) : Nat) : Int) + 1
      else 0 := by
  have hk : k < columns.length := lt_of_getElem?_some hc
  have hle := count_take_le (baseNames 0 columns) k (columnName c.Column k)
  rw [suffixAt_eq req columns k c hc, chooseSuffix,
    suffixes_fresh req columns k (Nat.le_of_lt hk) c.id hnew,
    seen_count req columns hlen k (Nat.le_of_lt hk)]
  simp only
  by_cases h0 : 0 < ((baseNames 0 columns).take k).count (columnName c.Column k)
  · rw [if_pos h0, if_pos (by omega), wrap32_eq _ (by omega) (by omega)]
  · rw [if_neg h0, if_neg (by omega)]

/-- Columns with the same identity are given the same suffix. -/
theorem suffixAt_same_identity (req : plugin.CodeGenRequest) (columns : List tsColumn)
    (i j : Nat) (ci cj : tsColumn) (hi : columns[i]? = some ci) (hj : columns[j]? = some cj)
    (hid : ci.id = cj.id) : suffixAt req columns i = suffixAt req columns j := by
  have key : ∀ (a b : Nat) (ca cb : tsColumn), a < b → columns[a]? = some ca →
      columns[b]? = some cb → ca.id = cb.id →
      suffixAt req columns a = suffixAt req columns b := by
    intro a b ca cb hab ha hb hab'
    have h := suffixes_recorded req columns b (Nat.le_of_lt (lt_of_getElem?_some hb)) a ca hab ha
    rw [suffixAt_eq req columns b cb hb, chooseSuffix, ← hab', h]
  rcases Nat.lt_trichotomy i j with h | h | h
  · exact key i j ci cj h hi hj hid
  · rw [h]
  · exact (key j i cj ci h hj hi hid.symm).symm

/-- Every column has a first column of the same identity. -/
theorem exists_first_identity (columns : List tsColumn) (i : Nat) (ci : tsColumn)
    (hi : columns[i]? = some ci) :
    ∃ (p : Nat) (cp : tsColumn), p ≤ i ∧ columns[p]? = some cp ∧ cp.id = ci.id ∧
      ∀ (j : Nat) (cj : tsColumn), j < p → columns[j]? = some cj → cj.id ≠ cp.id := by
  induction i using Nat.strong_induction_on generalizing ci with
  | _ i ih =>
    by_cases h : ∃ (j : Nat) (cj : tsColumn), j < i ∧ columns[j]? = some cj ∧ cj.id = ci.id
    · obtain ⟨j, cj, hj, hcj, hid⟩ := h
      obtain ⟨p, cp, hp, hcp, hpid, hfirst⟩ := ih j hj cj hcj
      exact ⟨p, cp, by omega, hcp, by rw [hpid, hid], hfirst⟩
    · refine ⟨i, ci, Nat.le_refl i, hi, rfl, ?_⟩
      intro j cj hj hcj hid
      exact h ⟨j, cj, hj, hcj, hid⟩

theorem suffixedName_ne (b : String) (s t : Int) (hs : 0 ≤ s) (ht : 0 ≤ t) (hne : s ≠ t) :
    suffixedName b s ≠ suffixedName b t := by
  have hlen : ∀ u : Int, b ≠ b ++ "_" ++ fmtInt u := by
    intro u h
    have h1 := congrArg String.length h
    simp only [String.length_append] at h1
    have h2 : ("_" : String).length = 1 := rfl
    omega
  have hinj : ∀ u v : Int, 0 ≤ u → 0 ≤ v → b ++ "_" ++ fmtInt u = b ++ "_" ++ fmtInt v → u = v := by
    intro u v hu hv h
    have h1 := congrArg String.data h
    simp only [String.data_append] at h1
    have h2 := List.append_cancel_left h1
    exact fmtInt_injective u v hu hv (String.ext h2)
  unfold suffixedName
  by_cases h1 : s > 0 <;> by_cases h2 : t > 0
  · rw [if_pos h1, if_pos h2]
    exact fun h => hne (hinj s t hs ht h)
  · rw [if_pos h1, if_neg h2]
    exact fun h => hlen s h.symm
  · rw [if_neg h1, if_pos h2]
    exact hlen t
  · exact absurd (show s = t by omega) hne

/-- On a list of fewer than `2^31` columns a suffix is 0 or at least 2. -/
theorem suffixAt_zero_or_two_le (req : plugin.CodeGenRequest) (columns : List tsColumn)
    (hlen : columns.length < 2147483648) (i : Nat) (ci : tsColumn)
    (hi : columns[i]? = some ci) :
    suffixAt req columns i = 0 ∨ 2 ≤ suffixAt req columns i := by
  obtain ⟨p, cp, _, hcp, hpid, hpfirst⟩ := exists_first_identity columns i ci hi
  rw [← suffixAt_same_identity req columns p i cp ci hcp hi hpid,
    suffixAt_fresh req columns hlen p cp hcp hpfirst]
  split
  · exact Or.inr (by omega)
  · exact Or.inl rfl

/-- On a list of fewer than `2^31` columns in which columns of one identity
have one base name, two columns with the same base name and different
identities are given different suffixes. -/
theorem suffixAt_ne_of_same_base (req : plugin.CodeGenRequest) (columns : List tsColumn)
    (i j : Nat) (ci cj : tsColumn) (hlen : columns.length < 2147483648)
    (hsame : ∀ (a b : Nat) (ca cb : tsColumn), columns[a]? = some ca → columns[b]? = some cb →
      ca.id = cb.id → columnName ca.Column a = columnName cb.Column b)
    (hi : columns[i]? = some ci) (hj : columns[j]? = some cj) (hid : ci.id ≠ cj.id)
    (hbase : columnName ci.Column i = columnName cj.Column j) :
    suffixAt req columns i ≠ suffixAt req columns j := by
  obtain ⟨p, cp, _, hcp, hpid, hpfirst⟩ := exists_first_identity columns i ci hi
  obtain ⟨r, cr, _, hcr, hrid, hrfirst⟩ := exists_first_identity columns j cj hj
  have hbp : columnName cp.Column p = columnName cj.Column j := by
    rw [hsame p i cp ci hcp hi hpid, hbase]
  have hbr : columnName cr.Column r = columnName cj.Column j := hsame r j cr cj hcr hj hrid
  rw [← suffixAt_same_identity req columns p i cp ci hcp hi hpid,
    ← suffixAt_same_identity req columns r j cr cj hcr hj hrid]
  have hsp := suffixAt_fresh req columns hlen p cp hcp hpfirst
  have hsr := suffixAt_fresh req columns hlen r cr hcr hrfirst
  rw [hbp] at hsp
  rw [hbr] at hsr
  have hpr : p ≠ r := by
    rintro rfl
    rw [hcp] at hcr
    have h := Option.some.inj hcr
    subst h
    exact hid (by rw [← hpid, hrid])
  have hstep : ∀ (a : Nat) (ca : tsColumn), columns[a]? = some ca →
      columnName ca.Column a = columnName cj.Column j → ∀ b, a < b →
      ((baseNames 0 columns).take a).count (columnName cj.Column j) + 1 ≤
        ((baseNames 0 columns).take b).count (columnName cj.Column j) := by
    intro a ca hca hba b hab
    have h1 := (List.take_sublist_take_left (baseNames 0 columns)
      (Nat.succ_le_of_lt hab)).count_le (columnName cj.Column j)
    rw [baseNames_take_succ columns a ca hca, List.count_append, hba] at h1
    simpa using h1
  rw [hsp, hsr]
  rcases Nat.lt_or_gt_of_ne hpr with h | h
  · have h1 := hstep p cp hcp hbp r h
    rw [if_pos (show 0 < List.count (columnName cj.Column j) (List.take r (baseNames 0 columns))
      by omega)]
    split <;> omega
  · have h1 := hstep r cr hcr hbr p h
    rw [if_pos (show 0 < List.count (columnName cj.Column j) (List.take p (baseNames 0 columns))
      by omega)]
    split <;> omega

/-- Two field names built from different base names are equal only when one
of them has no suffix and is the other, a base name followed by an underscore
and a decimal of at least 2. -/
theorem suffixedName_eq_cases (b d : String) (s t : Int) (hs : s = 0 ∨ 2 ≤ s)
    (ht : t = 0 ∨ 2 ≤ t) (h : suffixedName b s = suffixedName d t) :
    b = d ∨
    (∃ n : Nat, 2 ≤ n ∧ suffixedName d t = d ++ "_" ++ toString n ∧
      b = d ++ "_" ++ toString n) ∨
    (∃ n : Nat, 2 ≤ n ∧ suffixedName b s = b ++ "_" ++ toString n ∧
      d = b ++ "_" ++ toString n) := by
  have hfmt : ∀ u : Int, 2 ≤ u → ∃ n : Nat, 2 ≤ n ∧ fmtInt u = toString n := by
    intro u hu
    obtain ⟨n, rfl⟩ := Int.eq_ofNat_of_zero_le (show (0 : Int) ≤ u by omega)
    exact ⟨n, by omega, rfl⟩
  unfold suffixedName at h ⊢
  rcases hs with hs | hs <;> rcases ht with ht | ht
  · rw [if_neg (by omega), if_neg (by omega)] at h
    exact Or.inl h
  · obtain ⟨n, hn, hf⟩ := hfmt t ht
    rw [if_neg (by omega), if_pos (by omega), hf] at h
    refine Or.inr (Or.inl ⟨n, hn, ?_, h⟩)
    rw [if_pos (by omega), hf]
  · obtain ⟨n, hn, hf⟩ := hfmt s hs
    rw [if_pos (by omega), if_neg (by omega), hf] at h
    refine Or.inr (Or.inr ⟨n, hn, ?_, h.symm⟩)
    rw [if_pos (by omega), hf]
  · obtain ⟨m, _, hfm⟩ := hfmt s hs
    obtain ⟨n, _, hfn⟩ := hfmt t ht
    rw [if_pos (by omega), if_pos (by omega), hfm, hfn] at h
    exact Or.inl (suffixed_inj b d m n h)


/-! ## Type resolution -/

theorem enumOf_name (req : plugin.CodeGenRequest) (schema : plugin.Schema) (enum : plugin.Enum) :
    (enumOf req schema enum).Name = modelName (defaultName req schema enum.Name) req.Settings := by
  simp [enumOf, defaultName]

theorem structOf_name (req : plugin.CodeGenRequest) (schema : plugin.Schema)
    (table : plugin.Table) :
    (structOf req schema table).Name =
      modelName (defaultName req schema table.Rel.Name) req.Settings := by
  simp [structOf, defaultName]

theorem mem_buildEnums (req : plugin.CodeGenRequest) (e : Enum) :
    e ∈ buildEnums req ↔
      ∃ schema ∈ req.Catalog.Schemas, schema.Name ≠ "pg_catalog" ∧
        ∃ enum ∈ schema.Enums, enumOf req schema enum = e := by
  rw [(buildEnums_perm req).mem_iff, collectEnums_eq, nonSystemSchemas]
  simp only [List.mem_flatMap, List.mem_filter, List.mem_map, decide_eq_true_eq]
  constructor
  · rintro ⟨schema, ⟨h1, h2⟩, enum, h3, h4⟩
    exact ⟨schema, h1, h2, enum, h3, h4⟩
  · rintro ⟨schema, h1, h2, enum, h3, h4⟩
    exact ⟨schema, ⟨h1, h2⟩, enum, h3, h4⟩

/-- The scan of one schema in the `default:` branch of `postgresType`. -/
theorem enumScan_schema (req : plugin.CodeGenRequest) (columnType : String)
    (schema : plugin.Schema) (enums : List plugin.Enum) :
    (enums.findSome? fun enum =>
      let enumName :=
        if schema.Name = req.Catalog.DefaultSchema then enum.Name
        else schema.Name ++ "." ++ enum.Name
      if columnType = enumName then
        if schema.Name = req.Catalog.DefaultSchema then
          some (modelName enum.Name req.Settings)
        else some (modelName (schema.Name ++ "_" ++ enum.Name) req.Settings)
      else none) =
    ((enums.map fun e => (schema, e)).find? fun p =>
      decide (columnType = qualifiedEnumName req p.1 p.2)).map
        fun p => (enumOf req p.1 p.2).Name := by
  have hfun : (fun enum : plugin.Enum =>
      let enumName :=
        if schema.Name = req.Catalog.DefaultSchema then enum.Name
        else schema.Name ++ "." ++ enum.Name
      if columnType = enumName then
        if schema.Name = req.Catalog.DefaultSchema then
          some (modelName enum.Name req.Settings)
        else some (modelName (schema.Name ++ "_" ++ enum.Name) req.Settings)
      else none) =
      fun enum => if columnType = qualifiedEnumName req schema enum then
        some (enumOf req schema enum).Name else none := by
    funext enum
    by_cases hd : schema.Name = req.Catalog.DefaultSchema
    · simp [qualifiedEnumName, enumOf, hd]
    · simp [qualifiedEnumName, enumOf, hd]
  rw [hfun]
  induction enums with
  | nil => rfl
  | cons e es ih =>
    rw [List.findSome?_cons, List.map_cons, List.find?_cons]
    by_cases h : columnType = qualifiedEnumName req schema e
    · rw [if_pos h]
      simp only [h, decide_True, Option.map_some']
    · rw [if_neg h]
      simp only [h, decide_False]
      exact ih

/-- The scan of the `default:` branch of `postgresType` finds the first enum
with the column type as qualified name and gives the name `buildEnums` derives
for it. -/
theorem enumType_eq (req : plugin.CodeGenRequest) (columnType : String) :
    enumType req columnType =
      (firstEnum req columnType).map fun p => (enumOf req p.1 p.2).Name := by
  unfold enumType firstEnum enumEntries nonSystemSchemas
  induction req.Catalog.Schemas with
  | nil => rfl
  | cons s ss ih =>
    rw [List.findSome?_cons]
    by_cases hpg : s.Name = "pg_catalog"
    · simp only [hpg, if_true]
      rw [List.filter_cons_of_neg (by simp [hpg])]
      exact ih
    · simp only [hpg, if_false]
      rw [List.filter_cons_of_pos (by simp [hpg]), List.flatMap_cons, List.find?_append,
        enumScan_schema req columnType s s.Enums]
      cases hfind : List.find? (fun p => decide (columnType = qualifiedEnumName req p.1 p.2))
          (List.map (fun e => (s, e)) s.Enums) with
      | some p => simp
      | none =>
        simp only [Option.map_none', Option.none_or]
        exact ih

theorem postgresType_not_static (req : plugin.CodeGenRequest) (col : plugin.Column)
    (h : sdk.DataType col.Typ ∉ staticTypeNames) :
    postgresType req col = (enumType req (sdk.DataType col.Typ)).getD "any" := by
  simp only [staticTypeNames, List.mem_cons, List.mem_singleton, not_or, List.not_mem_nil,
    not_false_eq_true, and_true] at h
  simp [postgresType, h]

end typescript

/-! ## The naming transform -/

namespace strings

theorem splitChars_eq_splitOn (sep : Char) (l : List Char) :
    splitChars sep l = List.splitOn sep l := by
  unfold List.splitOn
  induction l with
  | nil => rfl
  | cons c cs ih =>
    rw [splitChars, List.splitOnP_cons, ih]
    by_cases h : c = sep
    · simp [h]
    · have hb : (c == sep) = false := by simpa using h
      rw [if_neg h, hb]
      simp only [Bool.false_eq_true, if_false]
      cases hs : List.splitOnP (fun x => x == sep) cs with
      | nil => exact absurd hs (List.splitOnP_ne_nil _ _)
      | cons w ws => rfl

theorem splitChars_mem (sep : Char) (l seg : List Char) (c : Char)
    (hseg : seg ∈ splitChars sep l) (hc : c ∈ seg) : c ∈ l ∧ c ≠ sep := by
  induction l generalizing seg with
  | nil =>
    simp only [splitChars, List.mem_singleton] at hseg
    subst hseg
    cases hc
  | cons a as ih =>
    rw [splitChars] at hseg
    by_cases h : a = sep
    · rw [if_pos h] at hseg
      rcases List.mem_cons.1 hseg with rfl | hseg
      · cases hc
      · exact ⟨List.mem_cons_of_mem _ (ih seg hseg hc).1, (ih seg hseg hc).2⟩
    · rw [if_neg h] at hseg
      cases hs : splitChars sep as with
      | nil =>
        rw [hs] at hseg
        simp only [List.mem_singleton] at hseg
        subst hseg
        simp only [List.mem_singleton] at hc
        subst hc
        exact ⟨List.mem_cons_self _ _, h⟩
      | cons w ws =>
        rw [hs] at hseg
        simp only at hseg
        rcases List.mem_cons.1 hseg with rfl | hseg
        · rcases List.mem_cons.1 hc with rfl | hc
          · exact ⟨List.mem_cons_self _ _, h⟩
          · have := ih w (by rw [hs]; exact List.mem_cons_self _ _) hc
            exact ⟨List.mem_cons_of_mem _ this.1, this.2⟩
        · have := ih seg (by rw [hs]; exact List.mem_cons_of_mem _ hseg) hc
          exact ⟨List.mem_cons_of_mem _ this.1, this.2⟩

theorem toTitle_eq_toUpper (c : Char) : toTitle c = c.toUpper := rfl

theorem isSeparator_of_lower_or_digit (c : Char)
    (h : c.isLower = true ∨ c.isDigit = true) : isSeparator c = false := by
  have hle : ∀ a b : UInt32, a ≤ b ↔ a.toNat ≤ b.toNat := fun _ _ => Iff.rfl
  have hge : ∀ a b : UInt32, a ≥ b ↔ b.toNat ≤ a.toNat := fun _ _ => Iff.rfl
  have hn : c.toNat = c.val.toNat := rfl
  have h97 : (97 : UInt32).toNat = 97 := rfl
  have h122 : (122 : UInt32).toNat = 122 := rfl
  have h48 : (48 : UInt32).toNat = 48 := rfl
  have h57 : (57 : UInt32).toNat = 57 := rfl
  have ha : 'a'.toNat = 97 := rfl
  have hz : 'z'.toNat = 122 := rfl
  have h0 : '0'.toNat = 48 := rfl
  have h9 : '9'.toNat = 57 := rfl
  unfold isSeparator
  rcases h with h | h
  · simp only [Char.isLower, Bool.and_eq_true, decide_eq_true_eq, hle, hge, h97, h122] at h
    have h1 : c.toNat ≤ 0x7F := by omega
    simp only [h1, if_true, ha, hz, h0, h9]
    simp only [Bool.not_eq_false', Bool.or_eq_true, Bool.and_eq_true, decide_eq_true_eq]
    exact Or.inl (Or.inl (Or.inr ⟨by omega, by omega⟩))
  · simp only [Char.isDigit, Bool.and_eq_true, decide_eq_true_eq, hle, hge, h48, h57] at h
    have h1 : c.toNat ≤ 0x7F := by omega
    simp only [h1, if_true, ha, hz, h0, h9]
    simp only [Bool.not_eq_false', Bool.or_eq_true, Bool.and_eq_true, decide_eq_true_eq]
    exact Or.inl (Or.inl (Or.inl ⟨by omega, by omega⟩))

theorem titleChars_of_not_separator (prev : Char) (cs : List Char)
    (hprev : isSeparator prev = false)
    (hcs : ∀ c ∈ cs, c.isLower = true ∨ c.isDigit = true) : titleChars prev cs = cs := by
  induction cs generalizing prev with
  | nil => rfl
  | cons c cs ih =>
    rw [titleChars, hprev]
    simp only [Bool.false_eq_true, if_false]
    rw [ih c (isSeparator_of_lower_or_digit c (hcs c (List.mem_cons_self _ _)))
      (fun d hd => hcs d (List.mem_cons_of_mem _ hd))]

theorem titleChars_segment (cs : List Char)
    (hcs : ∀ c ∈ cs, c.isLower = true ∨ c.isDigit = true) :
    titleChars ' ' cs = typescript.capitalize cs := by
  cases cs with
  | nil => rfl
  | cons c cs =>
    have hsp : isSeparator ' ' = true := by decide
    rw [titleChars, hsp, if_pos rfl, toTitle_eq_toUpper,
      titleChars_of_not_separator c cs
        (isSeparator_of_lower_or_digit c (hcs c (List.mem_cons_self _ _)))
        (fun d hd => hcs d (List.mem_cons_of_mem _ hd))]
    rfl

theorem toUpper_ne_underscore (c : Char) (h : c.isLower = true ∨ c.isDigit = true) :
    c.toUpper ≠ '_' := by
  have hle : ∀ a b : UInt32, a ≤ b ↔ a.toNat ≤ b.toNat := fun _ _ => Iff.rfl
  have hge : ∀ a b : UInt32, a ≥ b ↔ b.toNat ≤ a.toNat := fun _ _ => Iff.rfl
  have hn : c.toNat = c.val.toNat := rfl
  have h97 : (97 : UInt32).toNat = 97 := rfl
  have h122 : (122 : UInt32).toNat = 122 := rfl
  have h48 : (48 : UInt32).toNat = 48 := rfl
  have h57 : (57 : UInt32).toNat = 57 := rfl
  have hupper : ∀ n : Nat, 97 ≤ n → n ≤ 122 → Char.ofNat (n - 32) ≠ '_' := by
    intro n h1 h2
    interval_cases n <;> decide
  unfold Char.toUpper
  simp only
  rcases h with h | h
  · simp only [Char.isLower, Bool.and_eq_true, decide_eq_true_eq, hle, hge, h97, h122] at h
    rw [if_pos ⟨by omega, by omega⟩]
    exact hupper c.toNat (by omega) (by omega)
  · simp only [Char.isDigit, Bool.and_eq_true, decide_eq_true_eq, hle, hge, h48, h57] at h
    rw [if_neg (by omega)]
    intro hc
    rw [hc] at h
    have hu : ('_' : Char).val.toNat = 95 := rfl
    omega

end strings

namespace typescript

theorem foldl_title (segs : List (List Char)) (acc : String) :
    (segs.map String.mk).foldl (fun out p => out ++ strings.Title p) acc =
      acc ++ String.mk (segs.map (strings.titleChars ' ')).flatten := by
  induction segs generalizing acc with
  | nil =>
    apply String.ext
    simp [String.data_append]
  | cons seg segs ih =>
    rw [List.map_cons, List.foldl_cons, ih]
    apply String.ext
    simp [String.data_append, strings.Title]

theorem underScoresToCamelCase_eq (name : String) :
    underScoresToCamelCase name =
      String.mk ((strings.splitChars '_' name.data).map (strings.titleChars ' ')).flatten := by
  rw [underScoresToCamelCase, strings.Split, foldl_title]
  apply String.ext
  simp [String.data_append]


/-! ## The claims on queries -/

/-- C1, as amended: for a table `t` outside `pg_catalog` with more than one
column, all with non-empty names, and a query whose result columns are `t`'s
columns in order (same names, type names and flags, each column's table
accepted for `t`), `buildQueries` over `buildModels` reuses a known record and
does not emit it: a record of `buildModels` whose `Table` is `t`'s schema and
name, whose `Name` is that of `t`'s record and whose field names and types are
those of `t`'s record; it is `t`'s record itself when the records of
`buildModels` with that `Table` are all equal. -/
theorem buildQueries_reuses_table (req : plugin.CodeGenRequest) (schema : plugin.Schema)
    (table : plugin.Table) (i : Nat) (query : plugin.Query) (q : Query)
    (hs : schema ∈ req.Catalog.Schemas) (hn : schema.Name ≠ "pg_catalog")
    (ht : table ∈ schema.Tables) (hmany : 1 < table.Columns.length)
    (hnames : ∀ c ∈ table.Columns, c.Name ≠ "")
    (hquery : req.Queries[i]? = some query)
    (hq : (buildQueries req (buildModels req))[i]? = some q)
    (hcols : query.Columns.map columnShape = table.Columns.map columnShape)
    (htab : ∀ c ∈ query.Columns,
      sdk.SameTableName c.Table { Schema := schema.Name, Name := table.Rel.Name }
        req.Catalog.DefaultSchema = true) :
    q.Ret.Emit = false ∧
    ∃ s, q.Ret.Struct = some s ∧ s ∈ buildModels req ∧
      s.Table = { Schema := schema.Name, Name := table.Rel.Name } ∧
      s.Name = (structOf req schema table).Name ∧
      s.Fields.map (fun f => (f.Name, f.Typ)) =
        (structOf req schema table).Fields.map (fun f => (f.Name, f.Typ)) ∧
      ((∀ r ∈ buildModels req, r.Table = (structOf req schema table).Table →
          r = structOf req schema table) → s = structOf req schema table) := by
  have hqe := buildQueries_eq_of_getElem? hquery hq
  subst hqe
  have hlen : query.Columns.length = table.Columns.length := by
    simpa using congrArg List.length hcols
  have hmany' : 1 < query.Columns.length := by omega
  have hmatch := structOf_reuseMatch req schema table query hnames hcols htab
  have hmem : structOf req schema table ∈ buildModels req :=
    (mem_buildModels req _).2 ⟨schema, hs, hn, table, ht, rfl⟩
  cases hfind : findStruct req query (buildModels req) with
  | none =>
    exact absurd hmatch ((findStruct_none req query _).1 hfind _ hmem)
  | some s =>
    obtain ⟨pre, post, hsplit, hsm, _⟩ := (findStruct_some req query _ s).1 hfind
    have hsmem : s ∈ buildModels req := by
      rw [hsplit]
      simp
    have hret := queryRet_of_find req (buildModels req) query hmany' s hfind
    obtain ⟨c0, hc0⟩ := getElem?_some_of_lt query.Columns 0 (by omega)
    obtain ⟨f0, hf0⟩ := getElem?_some_of_lt s.Fields 0 (by rw [hsm.1]; omega)
    have hT : s.Table = { Schema := schema.Name, Name := table.Rel.Name } := by
      have h1 := (hsm.2 0 _ _ hf0 hc0).2.2
      have h2 := htab _ (List.getElem?_mem hc0)
      rw [SameTableName_iff] at h1 h2
      rw [h1] at h2
      exact Option.some.inj h2
    have hname : s.Name = (structOf req schema table).Name := by
      obtain ⟨schema', _, _, table', _, hst⟩ := (mem_buildModels req s).1 hsmem
      rw [← hst] at hT
      simp only [structOf, plugin.Identifier.mk.injEq, true_and] at hT
      rw [← hst]
      simp [structOf, hT.1, hT.2]
    have hfields : s.Fields.map (fun f => (f.Name, f.Typ)) =
        (structOf req schema table).Fields.map (fun f => (f.Name, f.Typ)) := by
      apply List.ext_getElem?
      intro k
      rw [List.getElem?_map, List.getElem?_map]
      rcases Nat.lt_or_ge k query.Columns.length with hlt | hge
      · obtain ⟨ck, hck⟩ := getElem?_some_of_lt query.Columns k hlt
        obtain ⟨fk, hfk⟩ := getElem?_some_of_lt s.Fields k (by rw [hsm.1]; exact hlt)
        obtain ⟨gk, hgk⟩ := getElem?_some_of_lt (structOf req schema table).Fields k
          (by rw [hmatch.1]; exact hlt)
        have h1 := hsm.2 k _ _ hfk hck
        have h2 := hmatch.2 k _ _ hgk hck
        rw [hfk, hgk]
        simp [h1.1, h1.2.1, h2.1, h2.2.1]
      · rw [List.getElem?_eq_none (by rw [hsm.1]; exact hge),
          List.getElem?_eq_none (by rw [hmatch.1]; exact hge)]
    refine ⟨by simp [buildQuery, hret], s, by simp [buildQuery, hret], hsmem, hT, hname,
      hfields, ?_⟩
    intro huniq
    exact huniq s hsmem (by rw [hT]; simp [structOf])

/-- C1 at the table `pets` and the query `ListPets` of `petsRequest`: the query
returns the record of `pets`, not emitted. -/
theorem buildQueries_reuses_table_witness :
    (buildQuery petsRequest (buildModels petsRequest) petsQuery).Ret.Emit = false ∧
    (buildQuery petsRequest (buildModels petsRequest) petsQuery).Ret.Struct =
      some (structOf petsRequest petsSchema petsTable) := by
  obtain ⟨h1, s, h2, _, _, _, _, h3⟩ :=
    buildQueries_reuses_table petsRequest petsSchema petsTable 0 petsQuery
      (buildQuery petsRequest (buildModels petsRequest) petsQuery)
      (by decide) (by decide) (by decide) (by decide) (by decide) rfl rfl (by decide)
      (by decide)
  refine ⟨h1, ?_⟩
  rw [h2, h3 (by decide)]

/-- C1 fails as stated: `blankTable` has two columns, sits outside
`pg_catalog`, and `blankQuery` selects exactly its columns, each with that
table as source; its first column has the empty name, which the record keeps
and the query replaces by `column_1`, so no record is reused and a new record
`ListTRow` is emitted. -/
theorem buildQueries_blank_name_not_reused :
    blankSchema ∈ blankRequest.Catalog.Schemas ∧ blankSchema.Name ≠ "pg_catalog" ∧
    blankTable ∈ blankSchema.Tables ∧ 1 < blankTable.Columns.length ∧
    blankQuery.Columns.map columnShape = blankTable.Columns.map columnShape ∧
    (∀ c ∈ blankQuery.Columns,
      sdk.SameTableName c.Table { Schema := blankSchema.Name, Name := blankTable.Rel.Name }
        blankRequest.Catalog.DefaultSchema = true) ∧
    (buildQueries blankRequest (buildModels blankRequest)).map
      (fun q => (q.Ret.Emit, q.Ret.Struct.map (fun s => (s.Table, s.Name)))) =
      [(true, some ({}, "ListTRow"))] := by
  decide

/-- C2: for a query with more than one result column, `Ret.Emit` is false
exactly when some known record satisfies the reuse-matching conditions;
`Ret.Struct` is then the first such record of the list; when no record
qualifies, `Ret.Struct` is the new record named `<query name>Row` and
`Ret.Emit` is true. -/
theorem buildQueries_reuse_first (req : plugin.CodeGenRequest) (structs : List Struct)
    (i : Nat) (query : plugin.Query) (q : Query)
    (hquery : req.Queries[i]? = some query) (hq : (buildQueries req structs)[i]? = some q)
    (hmany : 1 < query.Columns.length) :
    (q.Ret.Emit = false ↔ ∃ s ∈ structs, reuseMatch req query s) ∧
    (∀ (s : Struct) (pre post : List Struct), structs = pre ++ s :: post →
      reuseMatch req query s → (∀ t ∈ pre, ¬ reuseMatch req query t) →
        q.Ret.Struct = some s) ∧
    ((∀ s ∈ structs, ¬ reuseMatch req query s) →
      q.Ret.Struct = some (rowStruct req query) ∧
      (rowStruct req query).Name = query.Name ++ "Row" ∧
      q.Ret.Emit = true) := by
  have hqe := buildQueries_eq_of_getElem? hquery hq
  subst hqe
  refine ⟨?_, ?_, ?_⟩
  · cases hfind : findStruct req query structs with
    | none =>
      have hnone := (findStruct_none req query structs).1 hfind
      have hret := queryRet_of_none req structs query hmany hnone
      simp only [buildQuery, hret, Bool.true_eq_false, false_iff, not_exists, not_and]
      exact hnone
    | some s =>
      obtain ⟨pre, post, hsplit, hsm, _⟩ := (findStruct_some req query structs s).1 hfind
      have hret := queryRet_of_find req structs query hmany s hfind
      simp only [buildQuery, hret, true_iff]
      exact ⟨s, by rw [hsplit]; simp, hsm⟩
  · intro s pre post hsplit hsm hpre
    have hfind := (findStruct_some req query structs s).2 ⟨pre, post, hsplit, hsm, hpre⟩
    simp [buildQuery, queryRet_of_find req structs query hmany s hfind]
  · intro hnone
    simp [buildQuery, queryRet_of_none req structs query hmany hnone, rowStruct,
      columnsToStruct]

/-- C2 at the query `ListPets` of `petsRequest` over its models: the record of
`owners` comes first and does not match, the record of `pets` is the first
match and is the one returned. -/
theorem buildQueries_reuse_first_witness :
    (buildQuery petsRequest (buildModels petsRequest) petsQuery).Ret.Struct =
      some (structOf petsRequest petsSchema petsTable) :=
  (buildQueries_reuse_first petsRequest (buildModels petsRequest) 0 petsQuery
    (buildQuery petsRequest (buildModels petsRequest) petsQuery) rfl rfl (by decide)).2.1
    (structOf petsRequest petsSchema petsTable)
    [structOf petsRequest petsSchema ownersTable] [] (by decide)
    ((reuseMatch_iff petsRequest petsQuery _).2 (by decide))
    (by
      intro t ht
      rw [reuseMatch_iff]
      simp only [List.mem_singleton] at ht
      subst ht
      decide)

/-- C3: when two result columns of a query come from different source tables,
no known record is reused, whatever the list of known records: `Ret.Struct` is
the new record named `<query name>Row` and `Ret.Emit` is true. -/
theorem buildQueries_two_tables (req : plugin.CodeGenRequest) (structs : List Struct)
    (i : Nat) (query : plugin.Query) (q : Query) (j k : Nat) (cj ck : plugin.Column)
    (hquery : req.Queries[i]? = some query) (hq : (buildQueries req structs)[i]? = some q)
    (hj : query.Columns[j]? = some cj) (hk : query.Columns[k]? = some ck)
    (hdiff : sourceTable req.Catalog.DefaultSchema cj ≠
      sourceTable req.Catalog.DefaultSchema ck) :
    q.Ret.Struct = some (rowStruct req query) ∧
    (rowStruct req query).Name = query.Name ++ "Row" ∧
    q.Ret.Emit = true := by
  have hqe := buildQueries_eq_of_getElem? hquery hq
  subst hqe
  have hjk : j ≠ k := by
    rintro rfl
    rw [hj] at hk
    exact hdiff (by rw [Option.some.inj hk])
  have hmany : 1 < query.Columns.length := by
    have h1 := lt_of_getElem?_some hj
    have h2 := lt_of_getElem?_some hk
    omega
  have hnone : ∀ s ∈ structs, ¬ reuseMatch req query s := by
    intro s _ hsm
    obtain ⟨fj, hfj⟩ := getElem?_some_of_lt s.Fields j (by rw [hsm.1]; exact lt_of_getElem?_some hj)
    obtain ⟨fk, hfk⟩ := getElem?_some_of_lt s.Fields k (by rw [hsm.1]; exact lt_of_getElem?_some hk)
    have h1 := (hsm.2 j fj cj hfj hj).2.2
    have h2 := (hsm.2 k fk ck hfk hk).2.2
    rw [SameTableName_iff] at h1 h2
    exact hdiff (by rw [h1, h2])
  simp [buildQuery, queryRet_of_none req structs query hmany hnone, rowStruct, columnsToStruct]

/-- C3 at the join `ListPairs` of `petsRequest`, whose two columns `id` come
from `pets` and from `owners`. -/
theorem buildQueries_two_tables_witness :
    (buildQuery petsRequest (buildModels petsRequest) joinQuery).Ret.Struct =
      some (rowStruct petsRequest joinQuery) ∧
    (rowStruct petsRequest joinQuery).Name = "ListPairsRow" ∧
    (buildQuery petsRequest (buildModels petsRequest) joinQuery).Ret.Emit = true :=
  buildQueries_two_tables petsRequest (buildModels petsRequest) 1 joinQuery
    (buildQuery petsRequest (buildModels petsRequest) joinQuery) 0 1
    { Name := "id", NotNull := true, Typ := { Name := "int8" }, Table := some { Name := "pets" } }
    { Name := "id", NotNull := true, Typ := { Name := "int4" }, Table := some { Name := "owners" } }
    rfl rfl rfl rfl (by decide)


/-! ## The claims on struct synthesis -/

/-- C4: in `columnsToStruct`, two columns of the list that carry the same
identity receive the same numeric suffix, and when they also have the same base
name they receive the same field name; three columns named `x` with identities
1, 2, 1 give the field names `x`, `x_2`, `x`. -/
theorem columnsToStruct_same_identity (req : plugin.CodeGenRequest) (name : String)
    (columns : List tsColumn) (i j : Nat) (ci cj : tsColumn)
    (hi : columns[i]? = some ci) (hj : columns[j]? = some cj) (hid : ci.id = cj.id) :
    suffixAt req columns i = suffixAt req columns j ∧
    (columnName ci.Column i = columnName cj.Column j →
      ∃ (fi fj : Field), (columnsToStruct req name columns).Fields[i]? = some fi ∧
        (columnsToStruct req name columns).Fields[j]? = some fj ∧ fi.Name = fj.Name) ∧
    (columnsToStruct req name (namedColumns [1, 2, 1] ["x", "x", "x"])).Fields.map
      (fun f => f.Name) = ["x", "x_2", "x"] := by
  have hsuf := suffixAt_same_identity req columns i j ci cj hi hj hid
  refine ⟨hsuf, ?_, ?_⟩
  · intro hbase
    refine ⟨_, _, columnsToStruct_field req name columns i ci hi,
      columnsToStruct_field req name columns j cj hj, ?_⟩
    simp only
    rw [hbase, hsuf]
  · rfl

/-- C4 at the columns `x`, `x`, `x` with identities 1, 2, 1: positions 0 and 2
carry the identity 1 and receive the same suffix. -/
theorem columnsToStruct_same_identity_witness :
    suffixAt petsRequest (namedColumns [1, 2, 1] ["x", "x", "x"]) 0 =
      suffixAt petsRequest (namedColumns [1, 2, 1] ["x", "x", "x"]) 2 :=
  (columnsToStruct_same_identity petsRequest "P" (namedColumns [1, 2, 1] ["x", "x", "x"]) 0 2
    { id := 1, Column := { Name := "x" } } { id := 1, Column := { Name := "x" } }
    rfl rfl rfl).1

/-- C5 fails as stated: the columns `x`, `x`, `x_2` with identities 0, 1, 2
give the field names `x`, `x_2`, `x_2`, where positions 1 and 2 carry different
identities and the same field name; and the columns `y`, `x`, `x` with
identities 1, 2, 1 give `y`, `x`, `x`, where position 2 takes over the suffix 0
its identity was given under the other base name. -/
theorem columnsToStruct_collision :
    (columnsToStruct petsRequest "Row"
      (namedColumns [0, 1, 2] ["x", "x", "x_2"])).Fields.map (fun f => f.Name) =
      ["x", "x_2", "x_2"] ∧
    (columnsToStruct petsRequest "Params"
      (namedColumns [1, 2, 1] ["y", "x", "x"])).Fields.map (fun f => f.Name) =
      ["y", "x", "x"] := by
  decide

/-- C5, as amended: on a list of fewer than `2^31` columns in which columns of
one identity have one base name, two positions whose columns carry different
identities receive different field names, unless the base name of one of them
is the field name of the other and that field name is suffixed: the other base
name followed by an underscore and a decimal `n ≥ 2`. In particular the field
names differ when the two base names are equal, and when neither base name is
the other followed by such a suffix. -/
theorem columnsToStruct_distinct_names (req : plugin.CodeGenRequest) (name : String)
    (columns : List tsColumn) (i j : Nat) (ci cj : tsColumn) (fi fj : Field)
    (hlen : columns.length < 2147483648)
    (hsame : ∀ (a b : Nat) (ca cb : tsColumn), columns[a]? = some ca → columns[b]? = some cb →
      ca.id = cb.id → columnName ca.Column a = columnName cb.Column b)
    (hi : columns[i]? = some ci) (hj : columns[j]? = some cj) (hid : ci.id ≠ cj.id)
    (hfi : (columnsToStruct req name columns).Fields[i]? = some fi)
    (hfj : (columnsToStruct req name columns).Fields[j]? = some fj) :
    (fi.Name = fj.Name →
      (∃ n : Nat, 2 ≤ n ∧ fj.Name = columnName cj.Column j ++ "_" ++ toString n ∧
        columnName ci.Column i = fj.Name) ∨
      (∃ n : Nat, 2 ≤ n ∧ fi.Name = columnName ci.Column i ++ "_" ++ toString n ∧
        columnName cj.Column j = fi.Name)) ∧
    (columnName ci.Column i = columnName cj.Column j → fi.Name ≠ fj.Name) ∧
    ((∀ n : Nat, 2 ≤ n →
        columnName ci.Column i ≠ columnName cj.Column j ++ "_" ++ toString n ∧
        columnName cj.Column j ≠ columnName ci.Column i ++ "_" ++ toString n) →
      fi.Name ≠ fj.Name) := by
  rw [columnsToStruct_field req name columns i ci hi] at hfi
  rw [columnsToStruct_field req name columns j cj hj] at hfj
  have hfi' := Option.some.inj hfi
  have hfj' := Option.some.inj hfj
  subst hfi' hfj'
  simp only
  have hri := suffixAt_zero_or_two_le req columns hlen i ci hi
  have hrj := suffixAt_zero_or_two_le req columns hlen j cj hj
  have hbase : columnName ci.Column i = columnName cj.Column j →
      suffixedName (columnName ci.Column i) (suffixAt req columns i) ≠
        suffixedName (columnName cj.Column j) (suffixAt req columns j) := by
    intro hb
    rw [hb]
    exact suffixedName_ne _ _ _ (by omega) (by omega)
      (suffixAt_ne_of_same_base req columns i j ci cj hlen hsame hi hj hid hb)
  have hcases : suffixedName (columnName ci.Column i) (suffixAt req columns i) =
      suffixedName (columnName cj.Column j) (suffixAt req columns j) →
      (∃ n : Nat, 2 ≤ n ∧
        suffixedName (columnName cj.Column j) (suffixAt req columns j) =
          columnName cj.Column j ++ "_" ++ toString n ∧
        columnName ci.Column i = columnName cj.Column j ++ "_" ++ toString n) ∨
      (∃ n : Nat, 2 ≤ n ∧
        suffixedName (columnName ci.Column i) (suffixAt req columns i) =
          columnName ci.Column i ++ "_" ++ toString n ∧
        columnName cj.Column j = columnName ci.Column i ++ "_" ++ toString n) := by
    intro heq
    rcases suffixedName_eq_cases _ _ _ _ hri hrj heq with hb | h | h
    · exact absurd heq (hbase hb)
    · exact Or.inl h
    · exact Or.inr h
  refine ⟨?_, hbase, ?_⟩
  · intro heq
    rcases hcases heq with ⟨n, hn, h1, h2⟩ | ⟨n, hn, h1, h2⟩
    · exact Or.inl ⟨n, hn, h1, by rw [h1, h2]⟩
    · exact Or.inr ⟨n, hn, h1, by rw [h1, h2]⟩
  · intro hno heq
    rcases hcases heq with ⟨n, hn, _, h2⟩ | ⟨n, hn, _, h2⟩
    · exact (hno n hn).1 h2
    · exact (hno n hn).2 h2

/-- C5 at the columns `x`, `x`, `y` with identities 1, 2, 3: positions 1 and 2
differ in identity and in base name, neither base name is the other with a
suffix, and the fields are named `x_2` and `y`. -/
theorem columnsToStruct_distinct_names_witness : ("x_2" : String) ≠ "y" :=
  (columnsToStruct_distinct_names petsRequest "P" (namedColumns [1, 2, 3] ["x", "x", "y"]) 1 2
    { id := 2, Column := { Name := "x" } } { id := 3, Column := { Name := "y" } }
    { Name := "x_2", Typ := makeTsType petsRequest { Name := "x" } }
    { Name := "y", Typ := makeTsType petsRequest { Name := "y" } }
    (by decide)
    (by
      intro a b ca cb ha hb hab
      have ha' := List.getElem?_mem ha
      have hb' := List.getElem?_mem hb
      simp only [namedColumns, List.zipWith, List.mem_cons, List.mem_singleton,
        List.not_mem_nil, or_false] at ha' hb'
      rcases ha' with rfl | rfl | rfl <;> rcases hb' with rfl | rfl | rfl <;>
        first | rfl | exact absurd hab (by decide))
    rfl rfl (by decide) rfl rfl).2.2
    (by
      intro n _
      have hx : ("x" : String).length = 1 := rfl
      have hy : ("y" : String).length = 1 := rfl
      have hu : ("_" : String).length = 1 := rfl
      constructor
      · intro h
        have h0 : ("x" : String) = "y" ++ "_" ++ toString n := h
        have h1 := congrArg String.length h0
        rw [String.length_append, String.length_append] at h1
        omega
      · intro h
        have h0 : ("y" : String) = "x" ++ "_" ++ toString n := h
        have h1 := congrArg String.length h0
        rw [String.length_append, String.length_append] at h1
        omega)

/-- C6 fails as stated: the columns `x`, `x`, `x`, `x` with identities 1, 2, 1,
3 give the field names `x`, `x_2`, `x`, `x_4`, not `x`, `x_2`, `x`, `x_3`: the
recurrence of identity 1 is counted in `seen` and the suffix 3 is skipped. -/
theorem columnsToStruct_suffix_gap :
    (columnsToStruct petsRequest "Params"
      (namedColumns [1, 2, 1, 3] ["x", "x", "x", "x"])).Fields.map (fun f => f.Name) =
      ["x", "x_2", "x", "x_4"] ∧
    (columnsToStruct petsRequest "Params"
      (namedColumns [1, 2, 1, 3] ["x", "x", "x", "x"])).Fields.map (fun f => f.Name) ≠
      ["x", "x_2", "x", "x_3"] := by
  decide

/-- C6, as amended: on a list of fewer than `2^31` columns, a column whose
identity was not met before and whose base name was met on `n ≥ 1` earlier
columns, each earlier column counted whether or not its identity was new,
receives the suffix `n + 1` and the field name `<base name>_<n + 1>`. -/
theorem columnsToStruct_next_suffix (req : plugin.CodeGenRequest) (name : String)
    (columns : List tsColumn) (k : Nat) (c : tsColumn)
    (hlen : columns.length < 2147483648)
    (hc : columns[k]? = some c)
    (hnew : ∀ (j : Nat) (cj : tsColumn), j < k → columns[j]? = some cj → cj.id ≠ c.id)
    (hseen : 0 < ((baseNames 0 columns).take k).count (columnName c.Column k)) :
    suffixAt req columns k =
      ((((baseNames 0 columns).take k).count (columnName c.Column k) : Nat) : Int) + 1 ∧
    (columnsToStruct req name columns).Fields[k]? =
      some { Name := columnName c.Column k ++ "_" ++
               fmtInt (((((baseNames 0 columns).take k).count (columnName c.Column k) : Nat) :
                 Int) + 1),
             Typ := makeTsType req c.Column } := by
  have hs := suffixAt_fresh req columns hlen k c hc hnew
  rw [if_pos hseen] at hs
  refine ⟨hs, ?_⟩
  rw [columnsToStruct_field req name columns k c hc, hs, suffixedName, if_pos (by omega)]

/-- C6 at the columns `x`, `x`, `x`, `x` with identities 1, 2, 1, 3: the last
column has a new identity and three earlier columns with its base name, and is
named `x_4`. -/
theorem columnsToStruct_next_suffix_witness :
    (columnsToStruct petsRequest "Params"
      (namedColumns [1, 2, 1, 3] ["x", "x", "x", "x"])).Fields[3]? =
      some { Name := "x_4", Typ := makeTsType petsRequest { Name := "x" } } :=
  (columnsToStruct_next_suffix petsRequest "Params"
    (namedColumns [1, 2, 1, 3] ["x", "x", "x", "x"]) 3 { id := 3, Column := { Name := "x" } }
    (by decide) rfl
    (by
      intro j cj hj hcj
      have h3 : j = 0 ∨ j = 1 ∨ j = 2 := by omega
      rcases h3 with rfl | rfl | rfl <;>
        (simp only [namedColumns, List.zipWith] at hcj
         have h := Option.some.inj hcj
         subst h
         decide))
    (by decide)).2


/-! ## The claims on arguments and return values -/

/-- C7: the argument list is a single record-carrying value exactly when the
query has more than 4 parameters, and otherwise every argument is a scalar
without record; `Ret` carries a record exactly when the query has more than one
result column; with no result column `Ret` is absent: the zero value, with no
record, an empty type tag and an empty name. -/
theorem buildQueries_composite (req : plugin.CodeGenRequest) (structs : List Struct)
    (i : Nat) (query : plugin.Query) (q : Query)
    (hquery : req.Queries[i]? = some query) (hq : (buildQueries req structs)[i]? = some q) :
    ((∃ v s, q.Args = [v] ∧ v.Struct = some s) ↔ 4 < query.Params.length) ∧
    (query.Params.length ≤ 4 → ∀ v ∈ q.Args, v.Struct = none) ∧
    (q.Ret.Struct.isSome = true ↔ 1 < query.Columns.length) ∧
    (query.Columns.length = 0 →
      q.Ret = {} ∧ q.Ret.Struct = none ∧ q.Ret.Typ.InnerType = "" ∧ q.Ret.Name = "") := by
  have hqe := buildQueries_eq_of_getElem? hquery hq
  subst hqe
  have hfew : query.Params.length ≤ 4 → ∀ v ∈ queryArgs req query, v.Struct = none := by
    intro h v hv
    rw [queryArgs_few req query h] at hv
    obtain ⟨p, _, rfl⟩ := List.mem_map.1 hv
    rfl
  refine ⟨?_, hfew, queryRet_struct_isSome req structs query, ?_⟩
  · constructor
    · rintro ⟨v, s, hv, hs⟩
      by_contra hle
      have hnone := hfew (by omega) v (by simp only [buildQuery] at hv; rw [hv]; simp)
      rw [hnone] at hs
      cases hs
    · intro h
      exact ⟨_, _, queryArgs_many req query h, rfl⟩
  · intro h
    have h0 := queryRet_absent req structs query h
    simp only [buildQuery]
    rw [h0]
    exact ⟨rfl, rfl, rfl, rfl⟩

/-- C7 at the statement `UpdatePet` of `petsRequest`: five parameters, no
result column. -/
theorem buildQueries_composite_witness :
    (∃ v s, (buildQuery petsRequest [] updateQuery).Args = [v] ∧ v.Struct = some s) ∧
    (buildQuery petsRequest [] updateQuery).Ret = {} := by
  have h := buildQueries_composite petsRequest [] 2 updateQuery
    (buildQuery petsRequest [] updateQuery) rfl rfl
  exact ⟨h.1.2 (by decide), (h.2.2.2 (by decide)).1⟩

/-- C8: for a query with more than 4 parameters, `Args` is the single value
named `arg`, emitted, whose record is named `<query name>Params` and has one
field per parameter in parameter order; for a query with at most 4 parameters,
`Args` has one scalar value per parameter in parameter order, named
`paramName` of the parameter and typed `makeTsType` of its bound column. -/
theorem buildQueries_args (req : plugin.CodeGenRequest) (structs : List Struct)
    (i : Nat) (query : plugin.Query) (q : Query)
    (hquery : req.Queries[i]? = some query) (hq : (buildQueries req structs)[i]? = some q) :
    (4 < query.Params.length →
      ∃ s, q.Args = [{ Emit := true, Name := "arg", Struct := some s }] ∧
        s = columnsToStruct req (query.Name ++ "Params") (paramColumns query) ∧
        s.Name = query.Name ++ "Params" ∧
        s.Fields.length = query.Params.length ∧
        ∀ (k : Nat) (f : Field) (p : plugin.Parameter),
          s.Fields[k]? = some f → query.Params[k]? = some p →
            f.Typ = makeTsType req p.Column ∧
            f.Name = suffixedName (columnName p.Column k)
              (suffixAt req (paramColumns query) k)) ∧
    (query.Params.length ≤ 4 →
      q.Args = query.Params.map
        (fun p => { Name := paramName p, Typ := makeTsType req p.Column })) := by
  have hqe := buildQueries_eq_of_getElem? hquery hq
  subst hqe
  refine ⟨?_, queryArgs_few req query⟩
  intro h
  refine ⟨_, queryArgs_many req query h, rfl, rfl, ?_, ?_⟩
  · rw [columnsToStruct_fields_length]
    simp [paramColumns]
  · intro k f p hf hp
    have hc : (paramColumns query)[k]? = some { id := p.Number, Column := p.Column } := by
      simp [paramColumns, List.getElem?_map, hp]
    rw [columnsToStruct_field req _ _ k _ hc] at hf
    have hf' := Option.some.inj hf
    subst hf'
    exact ⟨rfl, rfl⟩

/-- C8 at the statement `UpdatePet` of `petsRequest`, with five parameters. -/
theorem buildQueries_args_witness :
    ∃ s, (buildQuery petsRequest [] updateQuery).Args =
        [{ Emit := true, Name := "arg", Struct := some s }] ∧
      s.Name = "UpdatePetParams" ∧
      s.Fields.map (fun f => f.Name) = ["fur_colour", "id", "id_2", "column_4", "full_name"] := by
  obtain ⟨s, h1, h2, h3, _, _⟩ :=
    (buildQueries_args petsRequest [] 2 updateQuery (buildQuery petsRequest [] updateQuery)
      rfl rfl).1 (by decide)
  refine ⟨s, h1, h3, ?_⟩
  rw [h2]
  decide


/-! ## The claims on models and enums -/

/-- C9: the record `buildModels` derives from a table outside `pg_catalog` has
one field per column, field `i` carrying the name of column `i`, the
resolver's tag for column `i` with a leading `models.` removed, the column's
`IsArray` flag and the negation of its `NotNull` flag. -/
theorem buildModels_fields (req : plugin.CodeGenRequest) (schema : plugin.Schema)
    (table : plugin.Table) (hs : schema ∈ req.Catalog.Schemas)
    (hn : schema.Name ≠ "pg_catalog") (ht : table ∈ schema.Tables) :
    structOf req schema table ∈ buildModels req ∧
    (structOf req schema table).Fields.length = table.Columns.length ∧
    ∀ (i : Nat) (f : Field) (c : plugin.Column),
      (structOf req schema table).Fields[i]? = some f → table.Columns[i]? = some c →
        f.Name = c.Name ∧
        f.Typ.InnerType = strings.TrimPrefix (tsInnerType req c) "models." ∧
        f.Typ.IsArray = c.IsArray ∧
        f.Typ.IsNull = !c.NotNull := by
  refine ⟨(mem_buildModels req _).2 ⟨schema, hs, hn, table, ht, rfl⟩, ?_, ?_⟩
  · simp [structOf]
  · intro i f c hf hc
    simp only [structOf, List.getElem?_map, hc, Option.map_some', Option.some.injEq] at hf
    subst hf
    simp [trimmedTsType, makeTsType]

/-- C9 at the table `pets` of `petsRequest`: its record is in the output and
its second field is the nullable string `fur_colour`. -/
theorem buildModels_fields_witness :
    structOf petsRequest petsSchema petsTable ∈ buildModels petsRequest ∧
    (structOf petsRequest petsSchema petsTable).Fields.length = 2 ∧
    ∀ (f : Field), (structOf petsRequest petsSchema petsTable).Fields[1]? = some f →
      f.Name = "fur_colour" ∧ f.Typ.InnerType = "string" ∧ f.Typ.IsArray = false ∧
        f.Typ.IsNull = true := by
  have h := buildModels_fields petsRequest petsSchema petsTable (by decide) (by decide)
    (by decide)
  exact ⟨h.1, h.2.1, fun f hf =>
    h.2.2 1 f { Name := "fur_colour", Typ := { Name := "text" } } hf rfl⟩

/-- C10: the lists `buildEnums` and `buildModels` return are sorted in
ascending order of `Name`, and each is a permutation of the descriptors derived
one per enum (one per table) of the schemas other than `pg_catalog`. -/
theorem buildEnums_buildModels_sorted_perm (req : plugin.CodeGenRequest) :
    (buildEnums req).Pairwise (fun a b => a.Name ≤ b.Name) ∧
    (buildEnums req).Perm
      ((nonSystemSchemas req).flatMap (fun s => s.Enums.map (enumOf req s))) ∧
    (buildModels req).Pairwise (fun a b => a.Name ≤ b.Name) ∧
    (buildModels req).Perm
      ((nonSystemSchemas req).flatMap (fun s => s.Tables.map (structOf req s))) := by
  refine ⟨?_, ?_, ?_, ?_⟩
  · unfold buildEnums
    simp only
    split
    · exact sort.Slice_sorted (fun e : Enum => e.Name) _
    · rename_i h
      have h0 : collectEnums req = [] := by
        cases hc : collectEnums req with
        | nil => rfl
        | cons a l => rw [hc] at h; simp at h
      rw [h0]
      exact List.Pairwise.nil
  · rw [← collectEnums_eq]
    exact buildEnums_perm req
  · unfold buildModels
    simp only
    split
    · exact sort.Slice_sorted (fun s : Struct => s.Name) _
    · rename_i h
      have h0 : collectStructs req = [] := by
        cases hc : collectStructs req with
        | nil => rfl
        | cons a l => rw [hc] at h; simp at h
      rw [h0]
      exact List.Pairwise.nil
  · rw [← collectStructs_eq]
    exact buildModels_perm req


/-! ## The claims on type resolution and names -/

/-- C11: with engine `postgresql`, for a column whose native type string is not
in the static table, `postgresType` returns the derived name of the first enum,
in catalog order and outside `pg_catalog`, whose name (bare in the default
schema, `schema.name` outside it) is the type string; that name is the `Name`
of the descriptor `buildEnums` derives for that enum, `modelName` of the bare
name in the default schema and of `schema_name` outside it; when no enum
matches, `postgresType` returns `any`. -/
theorem postgresType_enum (req : plugin.CodeGenRequest) (col : plugin.Column)
    (hengine : req.Settings.Engine = "postgresql")
    (hstatic : sdk.DataType col.Typ ∉ staticTypeNames) :
    (∀ (schema : plugin.Schema) (enum : plugin.Enum),
      firstEnum req (sdk.DataType col.Typ) = some (schema, enum) →
        postgresType req col = (enumOf req schema enum).Name ∧
        tsInnerType req col = (enumOf req schema enum).Name ∧
        enumOf req schema enum ∈ buildEnums req ∧
        (enumOf req schema enum).Name =
          modelName (if schema.Name = req.Catalog.DefaultSchema then enum.Name
            else schema.Name ++ "_" ++ enum.Name) req.Settings) ∧
    (firstEnum req (sdk.DataType col.Typ) = none →
      postgresType req col = "any" ∧ tsInnerType req col = "any") := by
  have hpt := postgresType_not_static req col hstatic
  rw [enumType_eq] at hpt
  have hts : tsInnerType req col = postgresType req col := by simp [tsInnerType, hengine]
  refine ⟨?_, ?_⟩
  · intro schema enum hfirst
    rw [hfirst] at hpt
    have hmem : (schema, enum) ∈ enumEntries req := List.mem_of_find?_eq_some hfirst
    simp only [enumEntries, nonSystemSchemas, List.mem_flatMap, List.mem_filter, List.mem_map,
      decide_eq_true_eq, Prod.mk.injEq] at hmem
    obtain ⟨s, ⟨hs, hn⟩, e, he, hse, hee⟩ := hmem
    subst hse hee
    refine ⟨by simpa using hpt, by rw [hts]; simpa using hpt, ?_, by simp [enumOf]⟩
    exact (mem_buildEnums req _).2 ⟨s, hs, hn, e, he, rfl⟩
  · intro hnone
    rw [hnone] at hpt
    exact ⟨by simpa using hpt, by rw [hts]; simpa using hpt⟩

/-- C11 at a column of type `shop.status` of `enumRequest`: the first of the
two enums `status` of the schema `shop` is found and its renamed name
returned. -/
theorem postgresType_enum_witness :
    postgresType enumRequest { Typ := { Schema := "shop", Name := "status" } } =
      (enumOf enumRequest { Name := "shop", Enums := [{ Name := "status", Vals := ["open"] },
        { Name := "status", Vals := ["shut"] }] } { Name := "status", Vals := ["open"] }).Name ∧
    (enumOf enumRequest { Name := "shop", Enums := [{ Name := "status", Vals := ["open"] },
        { Name := "status", Vals := ["shut"] }] } { Name := "status", Vals := ["open"] }).Name =
      "OrderStatus" := by
  have h := (postgresType_enum enumRequest { Typ := { Schema := "shop", Name := "status" } }
    rfl (by decide)).1
    { Name := "shop", Enums := [{ Name := "status", Vals := ["open"] },
      { Name := "status", Vals := ["shut"] }] } { Name := "status", Vals := ["open"] }
    (by decide)
  exact ⟨h.1, by decide⟩

/-- C12: with engine `postgresql`, whatever the catalog, the 64-bit integer
type names resolve to `string`, the 16- and 32-bit integer and the float type
names to `number`, the numeric, textual, temporal, uuid, network and ltree
names to `string`, the boolean names to `boolean`, and `json`, `jsonb`,
`bytea`, `blob`, `pg_catalog.bytea` to `unknown`. -/
theorem postgresType_static (req : plugin.CodeGenRequest) (col : plugin.Column)
    (hengine : req.Settings.Engine = "postgresql") :
    (sdk.DataType col.Typ ∈ ["bigserial", "serial8", "pg_catalog.serial8", "bigint", "int8",
        "pg_catalog.int8"] → tsInnerType req col = "string") ∧
    (sdk.DataType col.Typ ∈ ["serial", "serial4", "pg_catalog.serial4", "smallserial",
        "serial2", "pg_catalog.serial2", "integer", "int", "int4", "pg_catalog.int4",
        "smallint", "int2", "pg_catalog.int2", "float", "double precision", "float8",
        "pg_catalog.float8", "real", "float4", "pg_catalog.float4"] →
      tsInnerType req col = "number") ∧
    (sdk.DataType col.Typ ∈ ["numeric", "pg_catalog.numeric", "money",
        "date", "pg_catalog.time", "pg_catalog.timetz", "pg_catalog.timestamp",
        "pg_catalog.timestamptz", "timestamptz", "interval", "pg_catalog.interval",
        "timestamp with time zone", "text", "pg_catalog.varchar", "pg_catalog.bpchar",
        "string", "citext", "uuid", "inet", "cidr", "macaddr", "macaddr8", "ltree", "lquery",
        "ltxtquery"] → tsInnerType req col = "string") ∧
    (sdk.DataType col.Typ ∈ ["boolean", "bool", "pg_catalog.bool"] →
      tsInnerType req col = "boolean") ∧
    (sdk.DataType col.Typ ∈ ["json", "jsonb", "bytea", "blob", "pg_catalog.bytea"] →
      tsInnerType req col = "unknown") := by
  have hts : tsInnerType req col = postgresType req col := by simp [tsInnerType, hengine]
  rw [hts]
  unfold postgresType
  simp only
  generalize sdk.DataType col.Typ = columnType
  refine ⟨?_, ?_, ?_, ?_, ?_⟩ <;> intro h <;> fin_cases h <;> rfl

/-- C12 at a column of type `text` of `enumRequest`, whose catalog defines an
enum named `text`: the static table wins. -/
theorem postgresType_static_witness :
    tsInnerType enumRequest { Typ := { Name := "text" } } = "string" :=
  (postgresType_static enumRequest { Typ := { Name := "text" } } rfl).2.2.1 (by decide)

/-- C13: when the read of the rename map under a name gives a rename, a
non-empty string, `modelName` returns that string as it is; when the read gives
none, the empty string, `modelName` returns `underScoresToCamelCase` of the
name. `buildModels` and `buildEnums` name a record or an enum by `modelName` of
the default-derived name: the table or enum name, prefixed by the schema and an
underscore outside the default schema. -/
theorem modelName_rename (name : String) (settings : plugin.Settings)
    (req : plugin.CodeGenRequest) (schema : plugin.Schema) (table : plugin.Table)
    (enum : plugin.Enum) :
    (renameOf settings name ≠ "" → modelName name settings = renameOf settings name) ∧
    (renameOf settings name = "" → modelName name settings = underScoresToCamelCase name) ∧
    (∀ r, r ≠ "" → modelName name { settings with Rename := (name, r) :: settings.Rename } = r) ∧
    (settings.Rename.lookup name = none →
      modelName name settings = underScoresToCamelCase name) ∧
    (structOf req schema table).Name =
      modelName (if schema.Name = req.Catalog.DefaultSchema then table.Rel.Name
        else schema.Name ++ "_" ++ table.Rel.Name) req.Settings ∧
    (enumOf req schema enum).Name =
      modelName (if schema.Name = req.Catalog.DefaultSchema then enum.Name
        else schema.Name ++ "_" ++ enum.Name) req.Settings ∧
    modelName "shop_status" enumRequest.Settings = "OrderStatus" ∧
    modelName "fur_colour" enumRequest.Settings = "FurColour" := by
  refine ⟨?_, ?_, ?_, ?_, by simp [structOf], by simp [enumOf], by decide, by decide⟩
  · intro h
    simp [modelName, h]
  · intro h
    simp [modelName, h]
  · intro r hr
    simp [modelName, renameOf, List.lookup, hr]
  · intro h
    simp [modelName, renameOf, h]

/-- C14: for a column with an empty name at the 0-based position `pos`,
`columnName` returns `column_` followed by the decimal of `pos + 1`; for a
parameter whose bound column has an empty name, `paramName` returns `dollar_`
followed by the decimal of the parameter number; a name that is not empty is
returned unchanged. The third column gives `column_3`, the parameter 5
`dollar_5`. -/
theorem columnName_paramName (c : plugin.Column) (pos : Nat) (p : plugin.Parameter) :
    (c.Name = "" → columnName c pos = "column_" ++ toString (pos + 1)) ∧
    (c.Name ≠ "" → columnName c pos = c.Name) ∧
    (p.Column.Name = "" → paramName p = "dollar_" ++ toString p.Number) ∧
    (p.Column.Name ≠ "" → paramName p = p.Column.Name) ∧
    columnName { Name := "" } 2 = "column_3" ∧
    paramName { Number := 5, Column := { Name := "" } } = "dollar_5" := by
  refine ⟨?_, ?_, ?_, ?_, by decide, by decide⟩
  · intro h
    simp only [columnName, h, ne_eq, not_true_eq_false, if_false]
    rfl
  · intro h
    simp [columnName, h]
  · intro h
    simp only [paramName, h, ne_eq, not_true_eq_false, if_false]
    rfl
  · intro h
    simp [paramName, h]

/-- C15: the descriptor `buildEnums` derives from an enum outside `pg_catalog`
has one constant per literal value, in the order of the literal values, the
`i`-th constant with the `i`-th literal as `Value` and the naming transform of
that literal as `Name`. -/
theorem buildEnums_constants (req : plugin.CodeGenRequest) (schema : plugin.Schema)
    (enum : plugin.Enum) (hs : schema ∈ req.Catalog.Schemas)
    (hn : schema.Name ≠ "pg_catalog") (he : enum ∈ schema.Enums) :
    enumOf req schema enum ∈ buildEnums req ∧
    (enumOf req schema enum).Constants.length = enum.Vals.length ∧
    ∀ (i : Nat) (k : Constant) (v : String),
      (enumOf req schema enum).Constants[i]? = some k → enum.Vals[i]? = some v →
        k.Value = v ∧ k.Name = underScoresToCamelCase v := by
  refine ⟨(mem_buildEnums req _).2 ⟨schema, hs, hn, enum, he, rfl⟩, by simp [enumOf], ?_⟩
  intro i k v hk hv
  simp only [enumOf, List.getElem?_map, hv, Option.map_some', Option.some.injEq] at hk
  subst hk
  exact ⟨rfl, rfl⟩

/-- C15 at the enum `mood` of `petsRequest`: the constants `Happy` and
`VerySad` with the values `happy` and `very_sad`. -/
theorem buildEnums_constants_witness :
    enumOf petsRequest petsSchema { Name := "mood", Vals := ["happy", "very_sad"] } ∈
      buildEnums petsRequest ∧
    (enumOf petsRequest petsSchema { Name := "mood", Vals := ["happy", "very_sad"] }).Constants
      = [{ Name := "Happy", Typ := "Mood", Value := "happy" },
         { Name := "VerySad", Typ := "Mood", Value := "very_sad" }] :=
  ⟨(buildEnums_constants petsRequest petsSchema { Name := "mood", Vals := ["happy", "very_sad"] }
    (by decide) (by decide) (by decide)).1, by decide⟩

/-- C18: `EmitCode` appends to the writer the `InnerType`, or `void` when the
`InnerType` is empty, then `[]` when `IsArray`, then ` | null` when
`IsNullable`, and nothing else; a nullable string array gives
`string[] | null`, a number array `number[]`, an enum its name, the zero value
`void`. -/
theorem PrimitiveType_EmitCode (t : PrimitiveType) (w : String) :
    t.EmitCode w =
      w ++ ((if t.InnerType = "" then "void" else t.InnerType) ++
        (if t.IsArray = true then "[]" else "") ++
        (if t.IsNullable = true then " | null" else "")) ∧
    emitString t =
      (if t.InnerType = "" then "void" else t.InnerType) ++
        (if t.IsArray = true then "[]" else "") ++
        (if t.IsNullable = true then " | null" else "") ∧
    emitString { InnerType := "string", IsArray := true, IsNullable := true } =
      "string[] | null" ∧
    emitString { InnerType := "number", IsArray := true, IsNullable := false } = "number[]" ∧
    emitString { InnerType := "DayOfWeek" } = "DayOfWeek" ∧
    emitString {} = "void" := by
  have hempty : ∀ s : String, s ++ "" = s := fun s => by
    apply String.ext
    simp [String.data_append]
  have hleft : ∀ s : String, "" ++ s = s := fun s => by
    apply String.ext
    simp [String.data_append]
  have hmain : ∀ v : String, t.EmitCode v =
      v ++ ((if t.InnerType = "" then "void" else t.InnerType) ++
        (if t.IsArray = true then "[]" else "") ++
        (if t.IsNullable = true then " | null" else "")) := by
    intro v
    unfold PrimitiveType.EmitCode WriteString
    by_cases h1 : t.InnerType = "" <;> cases h2 : t.IsArray <;> cases h3 : t.IsNullable <;>
      simp [h1, hempty, String.append_assoc]
  refine ⟨hmain w, ?_, by decide, by decide, by decide, by decide⟩
  rw [emitString, hmain, hleft]


/-! ## The claims on record names, the naming transform and reuse -/

/-- C16 fails as stated: in `auditRequest` the table `audit_log` of the default
schema `public` and the table `log` of the schema `audit` have different
(schema name, table name) pairs and the same default-derived name `audit_log`,
so both records are named `AuditLog`. -/
theorem buildModels_name_collision :
    (tableKeys auditRequest).Nodup ∧
    (buildModels auditRequest).map (fun s => s.Name) = ["AuditLog", "AuditLog"] ∧
    ¬ ((buildModels auditRequest).map (fun s => s.Name)).Nodup := by
  decide

/-- C16, as amended: for a catalog whose tables in schemas other than
`pg_catalog` have pairwise distinct (schema name, table name) pairs, the records
`buildModels` returns have pairwise distinct `Table` identities; their `Name`
values are pairwise distinct when `modelName` maps the default-derived names of
those tables to pairwise distinct strings. -/
theorem buildModels_distinct (req : plugin.CodeGenRequest) (hkeys : (tableKeys req).Nodup) :
    ((buildModels req).map (fun s => (s.Table.Schema, s.Table.Name))).Nodup ∧
    (((tableDefaultNames req).map (fun n => modelName n req.Settings)).Nodup →
      ((buildModels req).map (fun s => s.Name)).Nodup) := by
  have hperm := buildModels_perm req
  rw [collectStructs_eq] at hperm
  refine ⟨?_, ?_⟩
  · rw [(hperm.map _).nodup_iff, List.map_flatMap]
    simpa [tableKeys, structOf, Function.comp_def] using hkeys
  · intro hnames
    rw [(hperm.map _).nodup_iff, List.map_flatMap]
    simpa [tableDefaultNames, structOf, defaultName, List.map_flatMap, Function.comp_def]
      using hnames

/-- C16 at `petsRequest`: the records of `pets` and `owners` have different
tables and the names `Owners` and `Pets`. -/
theorem buildModels_distinct_witness :
    ((buildModels petsRequest).map (fun s => (s.Table.Schema, s.Table.Name))).Nodup ∧
    ((buildModels petsRequest).map (fun s => s.Name)).Nodup :=
  have h := buildModels_distinct petsRequest (by decide)
  ⟨h.1, h.2 (by decide)⟩

/-- C17: on a name made of ASCII lowercase letters, digits and underscores,
`underScoresToCamelCase` returns the concatenation, in order, of the segments
between underscores, each with its first character upper-cased and the rest
unchanged; the result contains no underscore; `fur_colour` gives
`FurColour`. -/
theorem underScoresToCamelCase_snake (name : String)
    (h : ∀ c ∈ name.data, isSnakeChar c = true) :
    underScoresToCamelCase name =
      String.mk ((List.splitOn '_' name.data).map capitalize).flatten ∧
    '_' ∉ (underScoresToCamelCase name).data ∧
    underScoresToCamelCase "fur_colour" = "FurColour" := by
  have hseg : ∀ seg ∈ strings.splitChars '_' name.data, ∀ c ∈ seg,
      c.isLower = true ∨ c.isDigit = true := by
    intro seg hs c hc
    obtain ⟨hmem, hne⟩ := strings.splitChars_mem '_' name.data seg c hs hc
    have := h c hmem
    simp only [isSnakeChar, Bool.or_eq_true, decide_eq_true_eq] at this
    rcases this with (h1 | h1) | h1
    · exact Or.inl h1
    · exact Or.inr h1
    · exact absurd h1 hne
  have hmap : (strings.splitChars '_' name.data).map (strings.titleChars ' ') =
      (strings.splitChars '_' name.data).map capitalize :=
    List.map_congr_left (fun seg hs => strings.titleChars_segment seg (hseg seg hs))
  have heq : underScoresToCamelCase name =
      String.mk ((strings.splitChars '_' name.data).map capitalize).flatten := by
    rw [underScoresToCamelCase_eq, hmap]
  refine ⟨by rw [heq, strings.splitChars_eq_splitOn], ?_, by decide⟩
  rw [heq]
  simp only [List.mem_flatten, List.mem_map, not_exists, not_and]
  rintro l ⟨seg, hs, rfl⟩ hc
  cases seg with
  | nil => cases hc
  | cons d ds =>
    rcases List.mem_cons.1 hc with hd | hd
    · exact strings.toUpper_ne_underscore d (hseg _ hs d (List.mem_cons_self _ _)) hd.symm
    · exact (strings.splitChars_mem '_' name.data _ '_' hs (List.mem_cons_of_mem _ hd)).2 rfl

/-- C17 at the name `fur_colour`. -/
theorem underScoresToCamelCase_snake_witness :
    underScoresToCamelCase "fur_colour" =
      String.mk ((List.splitOn '_' "fur_colour".data).map capitalize).flatten ∧
    '_' ∉ (underScoresToCamelCase "fur_colour").data :=
  have h := underScoresToCamelCase_snake "fur_colour" (by decide)
  ⟨h.1, h.2.1⟩

/-- C19: on a list of fewer than `2^31` columns, the range of the `int32`
counters, whose identities are pairwise distinct, `columnsToStruct` returns one
field per column in column order, field `i` typed `makeTsType` of column `i`
and named `b` when no earlier column has the base name `b`, and `b_<k+1>` when
`k ≥ 1` earlier columns have it, where `b` is the name of column `i`, or
`column_<i+1>` when that name is empty. -/
theorem columnsToStruct_distinct_identities (req : plugin.CodeGenRequest) (name : String)
    (columns : List tsColumn) (hlen : columns.length < 2147483648)
    (hids : (columns.map (fun c => c.id)).Nodup) :
    (columnsToStruct req name columns).Fields.length = columns.length ∧
    ∀ (i : Nat) (c : tsColumn), columns[i]? = some c →
      columnName c.Column i =
        (if c.Column.Name ≠ "" then c.Column.Name else "column_" ++ toString (i + 1)) ∧
      (columnsToStruct req name columns).Fields[i]? =
        some { Name :=
                 if ((baseNames 0 columns).take i).count (columnName c.Column i) = 0 then
                   columnName c.Column i
                 else columnName c.Column i ++ "_" ++
                   toString (((baseNames 0 columns).take i).count (columnName c.Column i) + 1),
               Typ := makeTsType req c.Column } := by
  refine ⟨columnsToStruct_fields_length req name columns, ?_⟩
  intro i c hc
  have hi : i < columns.length := lt_of_getElem?_some hc
  have hnew : ∀ (j : Nat) (cj : tsColumn), j < i → columns[j]? = some cj → cj.id ≠ c.id := by
    intro j cj hj hcj heq
    have h := List.nodup_iff_getElem?_ne_getElem?.1 hids j i hj (by simpa using hi)
    apply h
    rw [List.getElem?_map, List.getElem?_map, hcj, hc]
    simp [heq]
  have hs := suffixAt_fresh req columns hlen i c hc hnew
  refine ⟨rfl, ?_⟩
  rw [columnsToStruct_field req name columns i c hc, hs]
  by_cases h0 : ((baseNames 0 columns).take i).count (columnName c.Column i) = 0
  · rw [if_neg (by omega), if_pos h0]
    rfl
  · rw [if_pos (by omega), if_neg h0, suffixedName, if_pos (by omega)]
    rfl

/-- C19 at the statement columns `fur_colour`, `id`, `id`, unnamed,
`full_name` with the identities 1 to 5: the second `id` is named `id_2`, the
unnamed column `column_4`. -/
theorem columnsToStruct_distinct_identities_witness :
    (columnsToStruct petsRequest "UpdatePetParams" (paramColumns updateQuery)).Fields.length = 5 ∧
    ((columnsToStruct petsRequest "UpdatePetParams" (paramColumns updateQuery)).Fields[2]?).map
      (fun f => f.Name) = some "id_2" ∧
    ((columnsToStruct petsRequest "UpdatePetParams" (paramColumns updateQuery)).Fields[3]?).map
      (fun f => f.Name) = some "column_4" := by
  have h := columnsToStruct_distinct_identities petsRequest "UpdatePetParams"
    (paramColumns updateQuery) (by decide) (by decide)
  refine ⟨h.1, ?_, ?_⟩
  · rw [(h.2 2 { id := 3, Column := { Name := "id", NotNull := true, Typ := { Name := "int4" } } }
      rfl).2]
    decide
  · rw [(h.2 3 { id := 4, Column := { Typ := { Name := "bool" } } } rfl).2]
    decide

/-- C20: for a query with more than one result column and a list of known
records whose (schema, name) table identities are pairwise distinct, at most
one record of the list satisfies the reuse-matching conditions, and what
`buildQueries` returns for the query is the same for every reordering of the
list. -/
theorem buildQueries_reuse_unique (req : plugin.CodeGenRequest) (structs : List Struct)
    (i : Nat) (query : plugin.Query)
    (hquery : req.Queries[i]? = some query) (hmany : 1 < query.Columns.length)
    (hkeys : (structs.map (fun s => (s.Table.Schema, s.Table.Name))).Nodup) :
    (∀ s ∈ structs, ∀ t ∈ structs, reuseMatch req query s → reuseMatch req query t → s = t) ∧
    ∀ (reordered : List Struct), reordered.Perm structs →
      (buildQueries req reordered)[i]? = (buildQueries req structs)[i]? := by
  have huniq : ∀ s ∈ structs, ∀ t ∈ structs, reuseMatch req query s →
      reuseMatch req query t → s = t := by
    intro s hs t ht hsm htm
    obtain ⟨c0, hc0⟩ := getElem?_some_of_lt query.Columns 0 (by omega)
    obtain ⟨f0, hf0⟩ := getElem?_some_of_lt s.Fields 0 (by rw [hsm.1]; omega)
    obtain ⟨g0, hg0⟩ := getElem?_some_of_lt t.Fields 0 (by rw [htm.1]; omega)
    have h1 := (hsm.2 0 f0 c0 hf0 hc0).2.2
    have h2 := (htm.2 0 g0 c0 hg0 hc0).2.2
    rw [SameTableName_iff] at h1 h2
    rw [h1] at h2
    have hT : s.Table = t.Table := Option.some.inj h2
    exact List.inj_on_of_nodup_map hkeys hs ht (by rw [hT])
  refine ⟨huniq, ?_⟩
  intro reordered hperm
  rw [buildQueries_getElem?, buildQueries_getElem?, hquery]
  simp only [Option.map_some', Option.some.injEq]
  have hfind : findStruct req query reordered = findStruct req query structs := by
    cases hf : findStruct req query structs with
    | none =>
      rw [findStruct_none] at hf ⊢
      exact fun s hs => hf s (hperm.mem_iff.1 hs)
    | some s =>
      obtain ⟨pre, post, hsplit, hsm, _⟩ := (findStruct_some req query structs s).1 hf
      have hs : s ∈ structs := by rw [hsplit]; simp
      cases hf' : findStruct req query reordered with
      | none =>
        exact absurd hsm ((findStruct_none req query reordered).1 hf' s (hperm.mem_iff.2 hs))
      | some t =>
        obtain ⟨pre', post', hsplit', htm, _⟩ := (findStruct_some req query reordered t).1 hf'
        have ht : t ∈ structs := hperm.mem_iff.1 (by rw [hsplit']; simp)
        rw [huniq t ht s hs htm hsm]
  simp only [buildQuery, queryRet_many req reordered query hmany,
    queryRet_many req structs query hmany, hfind]

/-- C20 at the query `ListPets` of `petsRequest`: its models in the other
order give the same descriptor. -/
theorem buildQueries_reuse_unique_witness :
    (buildQueries petsRequest [structOf petsRequest petsSchema petsTable,
      structOf petsRequest petsSchema ownersTable])[0]? =
    (buildQueries petsRequest (buildModels petsRequest))[0]? :=
  (buildQueries_reuse_unique petsRequest (buildModels petsRequest) 0 petsQuery rfl (by decide)
    (by decide)).2 _ (by decide)

end typescript
